import Mathlib

/-!
# Murmur server core (`src/murmur/Server.cpp`)

A shallow embedding of the session table, the UDP receive loop, the bandwidth
ring, the resync throttle and the voice fan-out of `Server.cpp`, followed by
theorems about them.

Conventions of the embedding.

* A `User *` is represented by the session id of the object it points to; the
  object itself is the record stored in `qhUsers` under that id.  Session ids
  of live objects are pairwise distinct (`TableInv.ids`), so pointer equality
  and id equality coincide.
* `QHash<K, V>` is a function `K → Option V` (`insert` overwrites, `remove`
  clears), `QSet<User *>` is a duplicate-free list (`insert` appends when
  absent, `remove` filters), `QQueue<int>` is a list with its head first.
  The order in which `foreach` enumerates a `QSet` is unspecified: `run`
  receives it as an input, and the statements about `processMsg` do not depend
  on it.
* A `Channel *` is represented by a channel number, a `Player *` in a channel's
  `qlPlayers` by the session id.  `Channel.cpp` is not part of the sources
  read here; `addPlayer` and `removePlayer` are modelled from their use in
  `playerEnterChannel`, `removeChannel` and `connectionClosed`.
* The locks of `Server::run` are not modelled: every operation below is one
  atomic step of a sequential interleaving.
* Timers are start stamps in microseconds; `elapsed()` at clock reading `now`
  is `now - start`.
-/

namespace Murmur

/-! ## Data model -/

/-- The class `BandwidthRecord`: the cursor `iRecNum`, the running sum `iSum`, the byte
slots `a_iBW` and the start stamps of the per-slot timers `a_qtWhen`. -/
structure BandwidthRecord where
  iRecNum : Nat
  iSum : Int
  a_iBW : List Nat
  a_qtWhen : List Nat
deriving DecidableEq

/-- The part of `CryptState` that `Server.cpp` reads: `isValid()` and the start
stamps of the timers `tLastGood` and `tLastRequest`. -/
structure CryptState where
  bInit : Bool
  tLastGood : Nat
  tLastRequest : Nat
deriving DecidableEq

/-- The enumeration `Player::State` as far as `Server.cpp` distinguishes it. -/
inductive PlayerState where
  | Connected
  | Authenticated
deriving DecidableEq

/-- A `User` object (a `Connection` and a `Player`): the fields `Server.cpp`
reads or writes.  `sin_addr` and `sin_port` are the two fields of
`saiUdpAddress`, both in network byte order as the socket layer delivers
them. -/
structure User where
  uiSession : Nat
  sin_addr : Nat
  sin_port : Nat
  csCrypt : CryptState
  sState : PlayerState
  bMute : Bool
  bSuppressed : Bool
  bDeaf : Bool
  bSelfDeaf : Bool
  cChannel : Nat
  bwr : BandwidthRecord
deriving DecidableEq

/-- The session table and the configuration fields of `Server` used by the
connection listener and the UDP worker. -/
structure Server where
  iMaxUsers : Int
  qlBans : List (Nat × Int)
  qqIds : List Nat
  qhUsers : Nat → Option User
  qhHostUsers : Nat → List Nat
  qhPeerUsers : Nat → Option Nat

/-- A pending stream connection as `newClient` sees it: the peer address (host
byte order, `toIPv4Address()`), the peer port, and `blank`, the object that the
`Connection` and `Player` constructors (not in this file) build before
`User::User` and `newClient` fill in the address and the session id. -/
structure Sock where
  peerAddress : Nat
  peerPort : Nat
  blank : User

/-- Values of the `Message::Speex` and `Message::Ping` enumerators (declared in
`Message.h`). -/
structure MessageIds where
  Speex : Nat
  Ping : Nat

/-- What the plaintext yields once a datagram decrypted under one session's
cipher state: the two fields read by `pds >> msgType >> uiSession` and
`pds.isValid()` after the reads. -/
structure Plain where
  msgType : Nat
  uiSession : Nat
  valid : Bool
deriving DecidableEq

/-- The input of one round of `Server::run`: the length and the source of the
datagram returned by `recvfrom`, the clock reading when it is processed, for
every session (by id) what `csCrypt.decrypt` under that session's cipher state
gives (`none`: the decryption fails), and `order`, the order in which
`foreach` hands out the elements of the set `qhHostUsers.value(s_addr)`, which
`QSet` leaves unspecified. -/
structure Datagram where
  len : Int
  sin_addr : Nat
  sin_port : Nat
  now : Nat
  decrypt : Nat → Option Plain
  order : List Nat

/-- How one round of the `while` loop of `Server::run` ends. -/
inductive Action where
  | stop
  | drop
  | ping (u : Nat) (len : Int)
  | voice (cCon : Option User)
deriving DecidableEq

/-! ## Table primitives -/

/-- The function `htonl` on a little-endian host: the four bytes of a 32-bit value in
reverse order. -/
def htonl (x : Nat) : Nat :=
  (x % 256) * 16777216 + (x / 256 % 256) * 65536 + (x / 65536 % 256) * 256 + (x / 16777216 % 256)

/-- The key of `qhPeerUsers`:
`(static_cast<unsigned long long>(s_addr) << 16) ^ sin_port`. -/
def peerKey (sin_addr sin_port : Nat) : Nat :=
  ((sin_addr <<< 16) % 2 ^ 64) ^^^ sin_port

/-- The operations `QHash::insert` and `QHash::remove` on a table (`none` removes). -/
def tblSet {α : Type} (t : Nat → Option α) (k : Nat) (v : Option α) : Nat → Option α :=
  fun j => if j = k then v else t j

/-- The statement `qhHostUsers[a].insert(u)`. -/
def hostInsert (t : Nat → List Nat) (a u : Nat) : Nat → List Nat :=
  fun b => if b = a then (if u ∈ t a then t a else t a ++ [u]) else t b

/-- The statement `qhHostUsers[a].remove(u)`. -/
def hostRemove (t : Nat → List Nat) (a u : Nat) : Nat → List Nat :=
  fun b => if b = a then (t a).filter (fun v => v ≠ u) else t b

/-- Writing a field of the object behind a `User *`: the record stored under the
pointer is replaced, provided the object is live. -/
def Server.setUser (s : Server) (i : Nat) (u : User) : Server :=
  match s.qhUsers i with
  | none => s
  | some _ => { s with qhUsers := tblSet s.qhUsers i (some u) }

/-- The table right after `Server::Server`: the pool holds `1 .. 4999` in order
(`for (int i=1;i<5000;i++) qqIds.enqueue(i)`) and the three indices are
empty.  `users` and `bans` are what `readParams` and `getBans` loaded. -/
def Server.fresh (users : Int) (bans : List (Nat × Int)) : Server where
  iMaxUsers := users
  qlBans := bans
  qqIds := List.range' 1 4999
  qhUsers := fun _ => none
  qhHostUsers := fun _ => []
  qhPeerUsers := fun _ => none

/-! ## `Server::newClient` -/

/-- The 32-bit pattern of `mask = (1 << (32 - n)) - 1` (an `int`), for a shift
count `32 - n` in `0 .. 31`; the subtraction wraps in two's complement. -/
def banMask (n : Int) : Nat :=
  (2 ^ (32 - n).toNat + 2 ^ 32 - 1) % 2 ^ 32

/-- The test `(base & ~mask) == (ban.first & ~mask)` of the ban loop; `~mask`
is the complement on 32 bits. -/
def banTest (base : Nat) (ban : Nat × Int) : Bool :=
  (base &&& (2 ^ 32 - 1 - banMask ban.2)) == (ban.1 &&& (2 ^ 32 - 1 - banMask ban.2))

/-- The `foreach(ban, qlBans)` loop of `newClient`: `true` when some entry
matches and the connection is dropped. -/
def banLoop (base : Nat) : List (Nat × Int) → Bool
  | [] => false
  | ban :: rest => if banTest base ban then true else banLoop base rest

/-- How `newClient` disposes of one pending connection. -/
inductive Verdict where
  | globalBan
  | localBan
  | full
  | accepted (uiSession : Nat)
deriving DecidableEq

/-- One round of the `forever` loop of `Server::newClient` for the pending
connection `sock`; `banCheck` is `meta->banCheck`. -/
def newClientOne (banCheck : Nat → Bool) (s : Server) (sock : Sock) : Server × Verdict :=
  if banCheck sock.peerAddress then (s, Verdict.globalBan)
  else if banLoop sock.peerAddress s.qlBans then (s, Verdict.localBan)
  else
    match s.qqIds with
    | [] => (s, Verdict.full)
    | i :: rest =>
      let u : User := { sock.blank with uiSession := i, sin_addr := htonl sock.peerAddress, sin_port := 0 }
      ({ s with
          qqIds := rest
          qhUsers := tblSet s.qhUsers i (some u)
          qhHostUsers := hostInsert s.qhHostUsers (htonl sock.peerAddress) i },
        Verdict.accepted i)

/-- The slot `Server::newClient`: pending connections are taken in order until the queue
is empty or one of them is turned away (each refusal ends in `return`); the
connections not looked at stay pending. -/
def newClient (banCheck : Nat → Bool) (s : Server) : List Sock → Server × List Sock
  | [] => (s, [])
  | sock :: rest =>
    match newClientOne banCheck s sock with
    | (s1, Verdict.accepted _) => newClient banCheck s1 rest
    | (s1, _) => (s1, rest)

/-! ## `Server::connectionClosed` -/

/-- The table surgery of `Server::connectionClosed` for the sender `u`: erase
the id from `qhUsers`, the pointer from `qhHostUsers` under the stored address
and the stored peer key from `qhPeerUsers`, then return the id to the pool. -/
def connectionClosed (s : Server) (u : User) : Server :=
  { s with
    qhUsers := tblSet s.qhUsers u.uiSession none
    qhHostUsers := hostRemove s.qhHostUsers u.sin_addr u.uiSession
    qhPeerUsers := tblSet s.qhPeerUsers (peerKey u.sin_addr u.sin_port) none
    qqIds := s.qqIds ++ [u.uiSession] }

/-! ## `Server::checkDecrypt` -/

/-- Modelled from the spec: `CryptState::decrypt` (in `CryptState.cpp`) starts
`tLastGood` afresh when a datagram decrypts, so that `tLastGood.elapsed()` is
the time since the last successful decrypt; a failed call leaves both timers
alone.  `plain` is what the cipher yields for this datagram. -/
def CryptState.decrypt (cs : CryptState) (plain : Option Plain) (now : Nat) : Bool × CryptState :=
  match plain with
  | some _ => (true, { cs with tLastGood := now })
  | none => (false, cs)

/-- Result of `checkDecrypt`: the returned flag, the object with its timers
updated, and whether `reqSync(u->uiSession)` was emitted. -/
structure Checked where
  ok : Bool
  user : User
  reqSync : Bool
deriving DecidableEq

/-- The function `Server::checkDecrypt` at clock reading `now`. -/
def checkDecrypt (u : User) (plain : Option Plain) (now : Nat) : Checked :=
  if u.csCrypt.bInit && (u.csCrypt.decrypt plain now).1 then
    { ok := true, user := { u with csCrypt := (u.csCrypt.decrypt plain now).2 }, reqSync := false }
  else if now - u.csCrypt.tLastGood > 5000000 then
    if now - u.csCrypt.tLastRequest > 5000000 then
      { ok := false, user := { u with csCrypt := { u.csCrypt with tLastRequest := now } }, reqSync := true }
    else { ok := false, user := u, reqSync := false }
  else { ok := false, user := u, reqSync := false }

/-! ## `Server::run` -/

/-- The variables the unknown-peer loop of `run` carries from one candidate to
the next: the table, `u`, the last values read into `msgType` and `uiSession`,
the validity of `pds`, and the sessions for which `reqSync` was emitted. -/
structure Scan where
  srv : Server
  u : Option Nat
  msgType : Nat
  uiSession : Nat
  valid : Bool
  sync : List Nat

/-- The promotion under the write lock in `run`, for the candidate behind
pointer `i` whose object currently reads `usr`:
`qhHostUsers[from.sin_addr.s_addr].remove(u)`, `qhPeerUsers.insert(key, u)`,
`u->saiUdpAddress.sin_port = from.sin_port`. -/
def promote (s : Server) (d : Datagram) (i : Nat) (usr : User) : Server :=
  Server.setUser
    { s with
      qhHostUsers := hostRemove s.qhHostUsers d.sin_addr i
      qhPeerUsers := tblSet s.qhPeerUsers (peerKey d.sin_addr d.sin_port) (some i) }
    i { usr with sin_port := d.sin_port }

/-- Body of `foreach(User *usr, qhHostUsers.value(from.sin_addr.s_addr))` for
the candidate behind pointer `i`.  A pointer whose object is gone is passed
over; a reachable table holds none (`TableInv.host`). -/
def tryCandidate (d : Datagram) (st : Scan) (i : Nat) : Scan :=
  match st.srv.qhUsers i with
  | none => st
  | some usr =>
    if usr.csCrypt.bInit then
      let r := checkDecrypt usr (d.decrypt i) d.now
      let srv1 := st.srv.setUser i r.user
      let sync1 := if r.reqSync then st.sync ++ [i] else st.sync
      match r.ok, d.decrypt i with
      | true, some pl =>
        if usr.uiSession = pl.uiSession then
          if (srv1.qhUsers pl.uiSession).isSome then
            let srv2 := promote srv1 d i r.user
            { srv := srv2
              u := if (srv2.qhUsers pl.uiSession).isSome then some i else none
              msgType := pl.msgType, uiSession := pl.uiSession, valid := pl.valid, sync := sync1 }
          else
            { st with srv := srv1, msgType := pl.msgType, uiSession := pl.uiSession, valid := pl.valid, sync := sync1 }
        else
          { st with srv := srv1, msgType := pl.msgType, uiSession := pl.uiSession, valid := pl.valid, sync := sync1 }
      | _, _ => { st with srv := srv1, sync := sync1 }
    else st

/-- The tail of one round of `run`: the message-type filter, `pds.isValid()`,
then the Ping echo `sendMessage(u, buffer, len, qba)` or
`processMsg(pds, qhUsers.value(uiSession))`. -/
def dispatch (K : MessageIds) (s : Server) (u : Nat) (msgType uiSession : Nat) (valid : Bool) (len : Int) : Action :=
  if msgType ≠ K.Speex ∧ msgType ≠ K.Ping then Action.drop
  else if valid = false then Action.drop
  else if msgType = K.Ping then Action.ping u len
  else Action.voice (s.qhUsers uiSession)

/-- What one round of the `while` loop of `run` leaves behind: the table, the
sessions for which `reqSync` was emitted, and how the round ended. -/
structure Round where
  srv : Server
  sync : List Nat
  act : Action

/-- One round of the `while (bRunning)` loop of `Server::run` for the datagram
`d` returned by `recvfrom`.  The candidates of an unknown source are visited
in the order `d.order`; a pointer of `qhPeerUsers` whose object is gone ends
the round, and a reachable table holds none (`TableInv.peer`). -/
def run (K : MessageIds) (s : Server) (d : Datagram) : Round :=
  if d.len = 0 then ⟨s, [], Action.stop⟩
  else if d.len = -1 then ⟨s, [], Action.stop⟩
  else if d.len < 6 then ⟨s, [], Action.drop⟩
  else
    match s.qhPeerUsers (peerKey d.sin_addr d.sin_port) with
    | some i =>
      match s.qhUsers i with
      | none => ⟨s, [], Action.drop⟩
      | some u =>
        let r := checkDecrypt u (d.decrypt i) d.now
        let s1 := s.setUser i r.user
        let sync := if r.reqSync then [i] else []
        match r.ok, d.decrypt i with
        | true, some pl =>
          if u.uiSession ≠ pl.uiSession then ⟨s1, sync, Action.drop⟩
          else ⟨s1, sync, dispatch K s1 i pl.msgType pl.uiSession pl.valid d.len⟩
        | _, _ => ⟨s1, sync, Action.drop⟩
    | none =>
      let st := d.order.foldl (tryCandidate d) ⟨s, none, 0, 0, true, []⟩
      match st.u with
      | none => ⟨st.srv, st.sync, Action.drop⟩
      | some i => ⟨st.srv, st.sync, dispatch K st.srv i st.msgType st.uiSession st.valid (d.len - 4)⟩

/-! ## Reachable tables -/

/-- The dispatcher of control messages (outside this file) changes fields of a
session object, for instance `sState`, the mute flags, the channel and the
cipher state at authentication.  It is taken to leave the session id and
`saiUdpAddress` alone, which in this file only `User::User`, `newClient` and
`run` write: `v` is such an update of `u`. -/
def sameBinding (u v : User) : Prop :=
  v.uiSession = u.uiSession ∧ v.sin_addr = u.sin_addr ∧ v.sin_port = u.sin_port

/-- The tables a server can be in: those of a freshly constructed server, and
those obtained from a reachable one by one pending connection handled by
`newClient`, one datagram handled by `run` with the candidate set enumerated in
any order, one stream close of a session that is in `qhUsers`, or one
control-plane update of a live session object. -/
inductive Reachable (K : MessageIds) : Server → Prop where
  | fresh (users : Int) (bans : List (Nat × Int)) : Reachable K (Server.fresh users bans)
  | accept {s : Server} (banCheck : Nat → Bool) (sock : Sock) :
      Reachable K s → Reachable K (newClientOne banCheck s sock).1
  | datagram {s : Server} (d : Datagram) :
      Reachable K s → d.order.Perm (s.qhHostUsers d.sin_addr) → Reachable K (run K s d).srv
  | close {s : Server} (u : User) :
      Reachable K s → s.qhUsers u.uiSession = some u → Reachable K (connectionClosed s u)
  | control {s : Server} (u v : User) :
      Reachable K s → s.qhUsers u.uiSession = some u → sameBinding u v →
      Reachable K (s.setUser u.uiSession v)

/-! ## `BandwidthRecord` -/

/-- The constructor `BandwidthRecord::BandwidthRecord()` for a ring of `N = N_BANDWIDTH_SLOTS`
slots; `t0` is the stamp the slot timers carry from their construction. -/
def BandwidthRecord.fresh (N t0 : Nat) : BandwidthRecord where
  iRecNum := 0
  iSum := 0
  a_iBW := List.replicate N 0
  a_qtWhen := List.replicate N t0

/-- The conversion `static_cast<unsigned char>(size)`. -/
def toUChar (size : Int) : Nat := (size % 256).toNat

/-- The function `BandwidthRecord::addFrame(size)` at clock reading `now`, for a ring of `N`
slots. -/
def BandwidthRecord.addFrame (N : Nat) (b : BandwidthRecord) (size : Int) (now : Nat) :
    BandwidthRecord where
  iSum := b.iSum - (b.a_iBW.getD b.iRecNum 0 : Nat) + (toUChar size : Nat)
  a_iBW := b.a_iBW.set b.iRecNum (toUChar size)
  a_qtWhen := b.a_qtWhen.set b.iRecNum now
  iRecNum := if b.iRecNum + 1 = N then 0 else b.iRecNum + 1

/-- Conversion of an unsigned 64-bit value to `int`. -/
def toInt32 (x : Nat) : Int :=
  if x % 2 ^ 32 < 2 ^ 31 then (x % 2 ^ 32 : Nat) else (x % 2 ^ 32 : Nat) - 2 ^ 32

/-- The function `BandwidthRecord::bytesPerSec()` at clock reading `now`:
`static_cast<int>((iSum * 1000000LL) / elapsed)` with a `quint64` divisor;
`none` when `elapsed` is zero and the division traps. -/
def BandwidthRecord.bytesPerSec (b : BandwidthRecord) (now : Nat) : Option Int :=
  if now - b.a_qtWhen.getD b.iRecNum 0 = 0 then none
  else some (toInt32 (((b.iSum * 1000000) % 2 ^ 64).toNat / (now - b.a_qtWhen.getD b.iRecNum 0)))

/-- A record after the frames `fs` (size and clock reading of each
`addFrame`), starting from a freshly constructed one. -/
def BandwidthRecord.after (N t0 : Nat) (fs : List (Int × Nat)) : BandwidthRecord :=
  fs.foldl (fun b f => b.addFrame N f.1 f.2) (BandwidthRecord.fresh N t0)

/-- The last `m` entries of a list. -/
def lastN (m : Nat) (l : List Nat) : List Nat := l.drop (l.length - m)

/-! ## `Server::sendMessage` and `Server::processMsg` -/

/-- What one call of `sendMessage` puts on the wire: a `sendto` of `bytes`
bytes to the stored peer, or a `tcpTransmit` of a `bytes`-long array to the
session. -/
inductive Wire where
  | udp (sin_addr sin_port : Nat) (bytes : Int)
  | tcp (uiSession : Nat) (bytes : Int)
deriving DecidableEq

/-- The function `Server::sendMessage(u, data, len, cache)`; `cache` is the length of the
cached array, `0` when it is empty. -/
def sendMessage (u : User) (len : Int) (cache : Int) : Wire × Int :=
  if u.sin_port ≠ 0 ∧ u.csCrypt.bInit = true then (Wire.udp u.sin_addr u.sin_port (len + 4), cache)
  else if cache = 0 then (Wire.tcp u.uiSession len, len)
  else (Wire.tcp u.uiSession cache, cache)

/-- The `ChanACL::Perm` values asked for by `processMsg`. -/
inductive Perm where
  | Speak
  | AltSpeak
deriving DecidableEq

/-- Bit masks `MessageSpeex::LoopBack` and `MessageSpeex::AltSpeak` (declared
in `Message.h`). -/
structure SpeexFlags where
  LoopBack : Nat
  AltSpeak : Nat

/-- The objects `processMsg` reads besides the speaker: the object behind each
`Player *` (by session id), the occupant list `qlPlayers` of each channel (by
channel id), whether `qhLinks` of a channel is empty, the result of
`allLinks()` for a channel, the outcome of `ChanACL::hasPermission` for a
speaker, a channel and a permission, and `iMaxBandwidth`. -/
structure World where
  player : Nat → User
  qlPlayers : Nat → List Nat
  qhLinksEmpty : Nat → Bool
  allLinks : Nat → List Nat
  hasPermission : Nat → Nat → Perm → Bool
  iMaxBandwidth : Int

/-- Result of one `processMsg` call: the speaker's bandwidth record as
`addFrame` left it (`none` when the call returned before), the recipients of
the `sendMessage` calls in the order issued, and whether the rate computation
divided by zero. -/
structure Routed where
  bwr : Option BandwidthRecord
  sends : List Nat
  trap : Bool
deriving DecidableEq

/-- The test `! p->bDeaf && ! p->bSelfDeaf` on the object behind `p`. -/
def hears (w : World) (p : Nat) : Bool :=
  !(w.player p).bDeaf && !(w.player p).bSelfDeaf

/-- The first `foreach` of `processMsg`: the occupants of the speaker's own
channel that hear and are not the speaker. -/
def ownSends (w : World) (u : User) : List Nat :=
  (w.qlPlayers u.cChannel).filter (fun p => hears w p && decide (p ≠ u.uiSession))

/-- The set `chans` of `processMsg`: empty when `c->qhLinks` is empty,
otherwise `c->allLinks()` with `c` removed, in the order `foreach` enumerates
it. -/
def linkedChans (w : World) (c : Nat) : List Nat :=
  if w.qhLinksEmpty c then [] else (w.allLinks c).filter (fun l => l ≠ c)

/-- The permission `processMsg` asks for:
`(flags & MessageSpeex::AltSpeak) ? ChanACL::AltSpeak : ChanACL::Speak`. -/
def wantedPerm (F : SpeexFlags) (flags : Nat) : Perm :=
  if flags &&& F.AltSpeak ≠ 0 then Perm.AltSpeak else Perm.Speak

/-- The body of `foreach(Channel *l, chans)` for one linked channel. -/
def linkSends (F : SpeexFlags) (w : World) (u : User) (flags : Nat) (l : Nat) : List Nat :=
  if w.hasPermission u.uiSession l (wantedPerm F flags) then (w.qlPlayers l).filter (hears w)
  else []

/-- The function `Server::processMsg(pds, cCon)` for the speaker object `cCon` (`none` for a
null pointer), the `flags` read from the stream and `pds.capacity()`; `now`
is the clock reading at `addFrame` and `later` the one at `bytesPerSec`, `N`
is `N_BANDWIDTH_SLOTS`. -/
def processMsg (F : SpeexFlags) (N : Nat) (w : World) (cCon : Option User) (flags capacity : Nat)
    (now later : Nat) : Routed :=
  match cCon with
  | none => ⟨none, [], false⟩
  | some u =>
    if u.sState ≠ PlayerState.Authenticated then ⟨none, [], false⟩
    else if u.bMute || u.bSuppressed then ⟨none, [], false⟩
    else
      let bw := u.bwr.addFrame N (20 + 8 + 4 + (capacity : Int)) now
      match bw.bytesPerSec later with
      | none => ⟨some bw, [], true⟩
      | some rate =>
        if rate > w.iMaxBandwidth then ⟨some bw, [], false⟩
        else if flags &&& F.LoopBack ≠ 0 then ⟨some bw, [u.uiSession], false⟩
        else
          ⟨some bw,
            ownSends w u ++ (linkedChans w u.cChannel).flatMap (linkSends F w u flags), false⟩

/-! ## Channel membership: `Server::playerEnterChannel`

The pointer `cChannel` of a session that stands in no occupant list is null or
stale and is read by none of the functions below; the worlds of
`ReachableWorld` leave it unconstrained. -/

/-- Modelled from the spec: `Channel::removePlayer` (in `Channel.cpp`) takes a
session out of the occupant list of the channel. -/
def removePlayer (w : World) (c p : Nat) : World :=
  { w with
    qlPlayers := fun k =>
      if k = c then (w.qlPlayers c).filter (fun x => x ≠ p) else w.qlPlayers k }

/-- Modelled from the spec: `Channel::addPlayer` (in `Channel.cpp`) makes the
channel the current channel of a session: the session leaves the occupant list
of the channel it was in, its pointer `cChannel` is set to the channel, and it
joins the occupant list of the channel. -/
def addPlayer (w : World) (c p : Nat) : World :=
  { w with
    player := fun i => if i = p then { w.player p with cChannel := c } else w.player i
    qlPlayers := fun k =>
      if k = c then (removePlayer w (w.player p).cChannel p).qlPlayers c ++ [p]
      else (removePlayer w (w.player p).cChannel p).qlPlayers k }

/-- The function `Server::playerEnterChannel(p, c, quiet)` on the channel
pointers, the occupant lists and the flag `bSuppressed`: the early return for
a quiet entry into the current channel, `c->addPlayer(p)`, the return for a
quiet entry, and for an unmuted session the update of `bSuppressed` when
`mayspeak == sup`.  `clearACLCache`, `setLastChannel` and the messages sent
are left out. -/
def playerEnterChannel (w : World) (p c : Nat) (quiet : Bool) : World :=
  if quiet = true ∧ (w.player p).cChannel = c then w
  else if quiet = true then addPlayer w c p
  else if ((addPlayer w c p).player p).bMute then addPlayer w c p
  else if (addPlayer w c p).hasPermission p c Perm.Speak
      = ((addPlayer w c p).player p).bSuppressed then
    { addPlayer w c p with
      player := fun i =>
        if i = p then
          { (addPlayer w c p).player p with
            bSuppressed := !(addPlayer w c p).hasPermission p c Perm.Speak }
        else (addPlayer w c p).player i }
  else addPlayer w c p

/-- The worlds the server can be in, as far as channel pointers and occupant
lists go: a world without occupants in which the object behind pointer `i`
carries session id `i`; a reachable world after `playerEnterChannel`; after
`removePlayer` (called by `connectionClosed` and `removeChannel`); and after
any other change, which keeps the occupant lists, the session id of every
object and the channel pointer of every listed session (flags, links,
permissions, bandwidth records, the objects of sessions in no list). -/
inductive ReachableWorld : World → Prop where
  | start (w : World) :
      (∀ c, w.qlPlayers c = []) → (∀ i, (w.player i).uiSession = i) → ReachableWorld w
  | enter {w : World} (p c : Nat) (quiet : Bool) :
      ReachableWorld w → ReachableWorld (playerEnterChannel w p c quiet)
  | leave {w : World} (c p : Nat) : ReachableWorld w → ReachableWorld (removePlayer w c p)
  | update {w : World} (v : World) :
      ReachableWorld w → (∀ c, v.qlPlayers c = w.qlPlayers c) →
      (∀ i, (v.player i).uiSession = (w.player i).uiSession) →
      (∀ c i, i ∈ w.qlPlayers c → (v.player i).cChannel = (w.player i).cChannel) →
      ReachableWorld v

/-! ## Invariants of the session table -/

/-- Coherence of the free pool with `qhUsers`. -/
structure PoolInv (s : Server) : Prop where
  nodup : s.qqIds.Nodup
  range : ∀ i ∈ s.qqIds, 1 ≤ i ∧ i < 5000
  live : ∀ i u, s.qhUsers i = some u → 1 ≤ i ∧ i < 5000
  free : ∀ i, 1 ≤ i → i < 5000 → (i ∈ s.qqIds ↔ s.qhUsers i = none)

/-- Two tables with the same pool and the same set of live session ids. -/
def SameDom (s t : Server) : Prop :=
  t.qqIds = s.qqIds ∧ ∀ i, t.qhUsers i = none ↔ s.qhUsers i = none

/-- Coherence of the two secondary indices with `qhUsers`: stored ids agree
with the keys, every pointer in `qhHostUsers[a]` is live and its object has
address `a`, the host sets hold no pointer twice, and every pointer in
`qhPeerUsers` is live, sits under the key of its stored peer and is in no host
set. -/
structure TableInv (s : Server) : Prop where
  ids : ∀ i u, s.qhUsers i = some u → u.uiSession = i
  host : ∀ a i, i ∈ s.qhHostUsers a → ∃ u, s.qhUsers i = some u ∧ u.sin_addr = a
  hostNodup : ∀ a, (s.qhHostUsers a).Nodup
  peer : ∀ k i, s.qhPeerUsers k = some i →
    ∃ u, s.qhUsers i = some u ∧ k = peerKey u.sin_addr u.sin_port ∧ i ∉ s.qhHostUsers u.sin_addr

/-- The outcome the peer-binding rule promises for session `i` and source
`(a, p)`: `qhPeerUsers` maps the key of `(a, p)` to `i`, the stored peer port
of `i` is `p`, `qhHostUsers[a]` does not hold `i`, and no other key of
`qhPeerUsers` maps to `i`. -/
def BoundTo (s : Server) (i a p : Nat) : Prop :=
  s.qhPeerUsers (peerKey a p) = some i ∧
  (∃ u, s.qhUsers i = some u ∧ u.sin_port = p) ∧
  i ∉ s.qhHostUsers a ∧
  ∀ k, s.qhPeerUsers k = some i → k = peerKey a p

/-- The state of the tables once session `i` has been promoted to the source
of datagram `d`. -/
def Promoted (d : Datagram) (i : Nat) (s : Server) : Prop :=
  s.qhPeerUsers (peerKey d.sin_addr d.sin_port) = some i ∧
  i ∉ s.qhHostUsers d.sin_addr ∧
  ∃ u, s.qhUsers i = some u ∧ u.sin_port = d.sin_port ∧ u.sin_addr = d.sin_addr

/-- Sequential connections, each handled by its own round of `newClient`. -/
def accepts (banCheck : Nat → Bool) (s : Server) (socks : List Sock) : Server :=
  socks.foldl (fun t sock => (newClientOne banCheck t sock).1) s

/-- The table after `m` allocations and no close: the pool holds
`m + 1 .. 4999` in order and `qhUsers` has exactly the keys `1 .. m`. -/
def AfterAllocs (bans : List (Nat × Int)) (m : Nat) (s : Server) : Prop :=
  s.qlBans = bans ∧ s.qqIds = List.range' (m + 1) (4999 - m) ∧
  ∀ i, (s.qhUsers i).isSome = true ↔ 1 ≤ i ∧ i ≤ m

/-- The ring after the stored values `vs`, oldest first: slot `i % N` holds
entry `i` of the zero-padded history for the last `N` positions `i`, the
cursor is `vs.length % N`, and the running sum is both the sum of the slots
and the sum of the last `N` entries of the padded history. -/
structure RingInv (N : Nat) (vs : List Nat) (b : BandwidthRecord) : Prop where
  len : b.a_iBW.length = N
  cursor : b.iRecNum = vs.length % N
  slots : b.iSum = ((b.a_iBW.sum : Nat) : Int)
  content : ∀ i, vs.length ≤ i → i < vs.length + N →
    b.a_iBW.getD (i % N) 0 = (List.replicate N 0 ++ vs).getD i 0
  recent : b.iSum = ((((List.replicate N 0 ++ vs).drop vs.length).sum : Nat) : Int)

/-- The fan-out of `processMsg` past the early returns when the Loopback bit is
clear: own channel first, then the linked channels. -/
def fanout (F : SpeexFlags) (w : World) (u : User) (flags : Nat) : List Nat :=
  ownSends w u ++ (linkedChans w u.cChannel).flatMap (linkSends F w u flags)

/-- A run of failed decrypts of one session at the clock readings `ts`: for
each `checkDecrypt` call whether it emitted `reqSync`, and the session object
at the end. -/
def failedDecrypts (u : User) : List Nat → List Bool × User
  | [] => ([], u)
  | t :: ts =>
    ((checkDecrypt u none t).reqSync :: (failedDecrypts (checkDecrypt u none t).user ts).1,
      (failedDecrypts (checkDecrypt u none t).user ts).2)

/-- The throttling rule in the words of the specification: a failure at time
`t` triggers a request iff more than 5 s have passed since the last good
decrypt and since the last request, and a request becomes the last request. -/
def resyncPolicy (lastGood lastRequest : Nat) : List Nat → List Bool
  | [] => []
  | t :: ts =>
    if 5000000 < t - lastGood ∧ 5000000 < t - lastRequest then
      true :: resyncPolicy lastGood t ts
    else false :: resyncPolicy lastGood lastRequest ts

/-- The clock readings at which a request was emitted. -/
def emissionTimes : List Nat → List Bool → List Nat
  | t :: ts, true :: es => t :: emissionTimes ts es
  | _ :: ts, false :: es => emissionTimes ts es
  | _, _ => []

/-- The Ping echo at the end of a round of `run`, `QByteArray qba;
sendMessage(u, buffer, len, qba)`: what goes on the wire, with `u` the object
behind the pointer the round ended with and an empty cache; `none` when the
round did not end in an echo. -/
def pingEcho (r : Round) : Option Wire :=
  match r.act with
  | Action.ping i len =>
    match r.srv.qhUsers i with
    | some u => some (sendMessage u len 0).1
    | none => none
  | _ => none

/-- The loop variables once the candidate loop has promoted session `i` on the
plaintext `pl`. -/
def ScanDone (i : Nat) (pl : Plain) (st : Scan) : Prop :=
  st.u = some i ∧ st.msgType = pl.msgType ∧ st.uiSession = pl.uiSession ∧ st.valid = pl.valid

/-- Channel pointers and occupant lists in step: the object behind pointer `i`
carries session id `i`, a session listed in a channel has that channel as its
current channel, and no list holds a session twice. -/
structure InStep (w : World) : Prop where
  ids : ∀ i, (w.player i).uiSession = i
  step : ∀ c p, p ∈ w.qlPlayers c → (w.player p).cChannel = c
  nodup : ∀ c, (w.qlPlayers c).Nodup

/-! ## Concrete scenarios -/

/-- Enumerator values used in the scenarios. -/
def demoIds : MessageIds := ⟨2, 10⟩

/-- A session object as the constructors leave it: not authenticated, cipher
state not yet valid. -/
def demoBlank : User :=
  { uiSession := 0, sin_addr := 0, sin_port := 0, csCrypt := ⟨false, 0, 0⟩,
    sState := PlayerState.Connected, bMute := false, bSuppressed := false, bDeaf := false,
    bSelfDeaf := false, cChannel := 0, bwr := ⟨0, 0, [], []⟩ }

/-- A stream connection from 10.0.0.1. -/
def demoSock : Sock := ⟨0x0A000001, 50000, demoBlank⟩

/-- The address 10.0.0.1 as `saiUdpAddress.sin_addr.s_addr` holds it. -/
def demoAddr : Nat := htonl 0x0A000001

/-- No global ban. -/
def noBan : Nat → Bool := fun _ => false

/-- The object of session `i` from 10.0.0.1 right after `newClient`. -/
def demoFresh (i : Nat) : User :=
  { demoBlank with uiSession := i, sin_addr := demoAddr }

/-- The object of session `i` from 10.0.0.1 once authenticated, with a valid
cipher state, before any datagram of it was seen. -/
def demoAuth (i : Nat) : User :=
  { demoBlank with
    uiSession := i, sin_addr := demoAddr, csCrypt := ⟨true, 0, 0⟩,
    sState := PlayerState.Authenticated }

/-- A cipher outcome: the datagram decrypts under the state of session `i`
only, to a voice message carrying id `i`. -/
def onlyFor (i : Nat) : Nat → Option Plain :=
  fun j => if j = i then some ⟨2, i, true⟩ else none

/-- Scenario A: two sessions from 10.0.0.1, the first authenticated. -/
def orphan3 : Server :=
  (accepts noBan (Server.fresh 100 []) [demoSock, demoSock]).setUser 1 (demoAuth 1)

/-- Scenario A: a datagram of session 1 with source port 0. -/
def orphanDatagram : Datagram := ⟨20, demoAddr, 0, 1000, onlyFor 1, [1, 2]⟩

/-- Scenario A: the datagram is processed, then the stream of session 2
closes. -/
def orphan5 : Server :=
  connectionClosed (run demoIds orphan3 orphanDatagram).srv (demoFresh 2)

/-- Scenario B: seven sessions from 10.0.0.1, the seventh authenticated. -/
def rebind8 : Server :=
  (accepts noBan (Server.fresh 100 []) (List.replicate 7 demoSock)).setUser 7 (demoAuth 7)

/-- Scenario B: a valid datagram of session 7 from port 40000. -/
def rebindFirst : Datagram := ⟨20, demoAddr, 40000, 1000, onlyFor 7, [1, 2, 3, 4, 5, 6, 7]⟩

/-- Scenario B: a later valid datagram of session 7 from port 40001. -/
def rebindSecond : Datagram := ⟨20, demoAddr, 40001, 2000, onlyFor 7, [1, 2, 3, 4, 5, 6]⟩

/-- Scenario B: the table after the first datagram. -/
def rebind9 : Server := (run demoIds rebind8 rebindFirst).srv

/-- The object of session 7 after its first datagram. -/
def rebindUser : User :=
  { demoBlank with
    uiSession := 7, sin_addr := demoAddr, sin_port := 40000, csCrypt := ⟨true, 1000, 0⟩,
    sState := PlayerState.Authenticated }

/-- The invariant of the secondary indices as the specification words it: every
session of `qhUsers` is either under the key of its stored peer in
`qhPeerUsers` or in the host set of its stored address, and not both. -/
def ExactlyOneIndex (s : Server) : Prop :=
  ∀ i u, s.qhUsers i = some u →
    (s.qhPeerUsers (peerKey u.sin_addr u.sin_port) = some i ∧ i ∉ s.qhHostUsers u.sin_addr) ∨
    (s.qhPeerUsers (peerKey u.sin_addr u.sin_port) ≠ some i ∧ i ∈ s.qhHostUsers u.sin_addr)

/-- Flag bits used in the scenarios: `LoopBack = 0x02`, `AltSpeak = 0x01`. -/
def demoFlags : SpeexFlags := ⟨2, 1⟩

/-- The speaker of the voice scenarios: session 5, authenticated, in channel
0, with a fresh ring of three slots. -/
def demoSpeaker : User :=
  { demoAuth 5 with cChannel := 0, bwr := BandwidthRecord.fresh 3 0 }

/-- A listener object: session `p`, authenticated, in channel 1, with the
given deaf flags. -/
def demoListener (p : Nat) (deaf selfDeaf : Bool) : User :=
  { demoAuth p with cChannel := 1, bDeaf := deaf, bSelfDeaf := selfDeaf }

/-- Scenario C: channels 0 (A) and 1 (B) are linked; the speaker 5 is alone in
A, the listener 6 is alone in B.  `perm` is the ACL and `selfDeaf` the
self-deaf flag of the listener, whose server-side deaf flag is clear. -/
def gateWorld (perm : Nat → Nat → Perm → Bool) (selfDeaf : Bool) : World where
  player := fun p => if p = 5 then demoSpeaker else demoListener p false selfDeaf
  qlPlayers := fun c => if c = 0 then [5] else if c = 1 then [6] else []
  qhLinksEmpty := fun c => decide (2 ≤ c)
  allLinks := fun c => if c = 0 then [0, 1] else if c = 1 then [1, 0] else [c]
  hasPermission := perm
  iMaxBandwidth := 100000

/-- An ACL that grants the speaker `Speak` in channel 0 only. -/
def speakInA : Nat → Nat → Perm → Bool := fun _ c p => decide (c = 0) && decide (p = Perm.Speak)

/-- An ACL that grants the speaker `Speak` in channels 0 and 1. -/
def speakInAB : Nat → Nat → Perm → Bool := fun _ c p => decide (c ≤ 1) && decide (p = Perm.Speak)

/-- An ACL that grants the speaker `Speak` in channel 0 and only `AltSpeak`
in channel 1. -/
def altSpeakInB : Nat → Nat → Perm → Bool :=
  fun _ c p => (decide (c = 0) && decide (p = Perm.Speak)) ||
    (decide (c = 1) && decide (p = Perm.AltSpeak))

/-- Scenario D: channel 0 holds the speaker 5 and the listeners 6 and 7,
the linked channels 1 and 2 hold 8, 9 and 10; all may be spoken to. -/
def crowdWorld : World where
  player := fun p =>
    if p = 5 then demoSpeaker
    else
      { demoListener p false false with
        cChannel := if p ≤ 7 then 0 else if p ≤ 9 then 1 else 2 }
  qlPlayers := fun c => if c = 0 then [6, 5, 7] else if c = 1 then [8, 9] else if c = 2 then [10] else []
  qhLinksEmpty := fun c => decide (3 ≤ c)
  allLinks := fun c => if c ≤ 2 then [0, 1, 2] else [c]
  hasPermission := fun _ _ _ => true
  iMaxBandwidth := 100000

/-- Scenario E: a session whose last good decrypt and last request both date
from time 0. -/
def staleUser : User := demoAuth 7

/-- A cipher outcome: the datagram decrypts under the state of session `i`
only, to a Ping message carrying id `i`. -/
def pingFor (i : Nat) : Nat → Option Plain :=
  fun j => if j = i then some ⟨10, i, true⟩ else none

/-- Scenario F: a Ping of 20 bytes from 10.0.0.1:40000 by session 7 while it
is still unbound (processed on the table `rebind8`). -/
def pingUnbound : Datagram := ⟨20, demoAddr, 40000, 1000, pingFor 7, [1, 2, 3, 4, 5, 6, 7]⟩

/-- Scenario F: a Ping of 20 bytes from 10.0.0.1:40000 by session 7 once it is
bound to that source (processed on the table `rebind9`). -/
def pingBound : Datagram := ⟨20, demoAddr, 40000, 3000, pingFor 7, [1, 2, 3, 4, 5, 6]⟩

/-! ## The free pool and `qhUsers` -/

theorem SameDom.refl (s : Server) : SameDom s s := ⟨rfl, fun _ => Iff.rfl⟩

theorem SameDom.trans {s t r : Server} (h1 : SameDom s t) (h2 : SameDom t r) : SameDom s r :=
  ⟨h2.1.trans h1.1, fun i => (h2.2 i).trans (h1.2 i)⟩

theorem PoolInv.of_sameDom {s t : Server} (h : PoolInv s) (hd : SameDom s t) : PoolInv t := by
  obtain ⟨hq, hu⟩ := hd
  refine ⟨by rw [hq]; exact h.nodup, by rw [hq]; exact h.range, ?_, ?_⟩
  · intro i u hi
    cases hs : s.qhUsers i with
    | none => rw [(hu i).2 hs] at hi; cases hi
    | some v => exact h.live i v hs
  · intro i h1 h2
    rw [hq, hu i]
    exact h.free i h1 h2

theorem setUser_qqIds (s : Server) (i : Nat) (u : User) : (s.setUser i u).qqIds = s.qqIds := by
  unfold Server.setUser; split <;> rfl

theorem setUser_host (s : Server) (i : Nat) (u : User) :
    (s.setUser i u).qhHostUsers = s.qhHostUsers := by
  unfold Server.setUser; split <;> rfl

theorem setUser_peer (s : Server) (i : Nat) (u : User) :
    (s.setUser i u).qhPeerUsers = s.qhPeerUsers := by
  unfold Server.setUser; split <;> rfl

theorem setUser_users_ne (s : Server) (i j : Nat) (u : User) (h : j ≠ i) :
    (s.setUser i u).qhUsers j = s.qhUsers j := by
  unfold Server.setUser; split
  · rfl
  · simp [tblSet, h]

theorem setUser_users_self (s : Server) (i : Nat) (u v : User) (h : s.qhUsers i = some v) :
    (s.setUser i u).qhUsers i = some u := by
  unfold Server.setUser; rw [h]; simp [tblSet]

theorem setUser_users_none (s : Server) (i : Nat) (u : User) (h : s.qhUsers i = none) :
    s.setUser i u = s := by
  unfold Server.setUser; rw [h]

theorem setUser_sameDom (s : Server) (i : Nat) (u : User) : SameDom s (s.setUser i u) := by
  refine ⟨setUser_qqIds s i u, fun j => ?_⟩
  by_cases hj : j = i
  · subst hj
    cases hs : s.qhUsers j with
    | none => rw [setUser_users_none s j u hs, hs]
    | some v => rw [setUser_users_self s j u v hs]; simp
  · rw [setUser_users_ne s i j u hj]

theorem promote_sameDom (s : Server) (d : Datagram) (i : Nat) (u : User) :
    SameDom s (promote s d i u) := by
  unfold promote
  exact SameDom.trans ⟨rfl, fun _ => Iff.rfl⟩ (setUser_sameDom _ i _)

theorem tryCandidate_sameDom (d : Datagram) (st : Scan) (i : Nat) :
    SameDom st.srv (tryCandidate d st i).srv := by
  unfold tryCandidate
  split
  · exact SameDom.refl _
  · split
    · dsimp only
      split
      · split
        · split
          · exact SameDom.trans (setUser_sameDom _ _ _) (promote_sameDom _ _ _ _)
          · exact setUser_sameDom _ _ _
        · exact setUser_sameDom _ _ _
      · exact setUser_sameDom _ _ _
    · exact SameDom.refl _

theorem scan_sameDom (d : Datagram) (cs : List Nat) (st : Scan) :
    SameDom st.srv (cs.foldl (tryCandidate d) st).srv := by
  induction cs generalizing st with
  | nil => exact SameDom.refl _
  | cons c cs ih => exact SameDom.trans (tryCandidate_sameDom d st c) (ih _)

theorem run_sameDom (K : MessageIds) (s : Server) (d : Datagram) : SameDom s (run K s d).srv := by
  unfold run
  split
  · exact SameDom.refl _
  split
  · exact SameDom.refl _
  split
  · exact SameDom.refl _
  split
  · split
    · exact SameDom.refl _
    · dsimp only
      split
      · split <;> exact setUser_sameDom _ _ _
      · exact setUser_sameDom _ _ _
  · dsimp only
    split <;> exact scan_sameDom d _ _


theorem poolInv_fresh (users : Int) (bans : List (Nat × Int)) : PoolInv (Server.fresh users bans) := by
  refine ⟨List.nodup_range' 1 4999, ?_, ?_, ?_⟩
  · intro i hi
    have := List.mem_range'_1.1 hi
    omega
  · intro i u hi
    simp [Server.fresh] at hi
  · intro i h1 h2
    simp only [Server.fresh, List.mem_range'_1]
    constructor
    · intro _; trivial
    · intro _; omega

theorem poolInv_accept (banCheck : Nat → Bool) (s : Server) (sock : Sock) (h : PoolInv s) :
    PoolInv (newClientOne banCheck s sock).1 := by
  unfold newClientOne
  split
  · exact h
  split
  · exact h
  split
  · exact h
  · rename_i i rest hq
    have hnd : (i :: rest).Nodup := hq ▸ h.nodup
    have hi : i ∈ s.qqIds := by rw [hq]; exact List.mem_cons_self _ _
    have hir := h.range i hi
    refine ⟨(List.nodup_cons.1 hnd).2, ?_, ?_, ?_⟩
    · intro j hj
      exact h.range j (by rw [hq]; exact List.mem_cons_of_mem _ hj)
    · intro j u hj
      simp only [tblSet] at hj
      by_cases hji : j = i
      · subst hji; exact hir
      · rw [if_neg hji] at hj; exact h.live j u hj
    · intro j h1 h2
      simp only [tblSet]
      by_cases hji : j = i
      · subst hji
        simp [(List.nodup_cons.1 hnd).1]
      · rw [if_neg hji, ← h.free j h1 h2, hq]
        simp [hji]

theorem poolInv_close (s : Server) (u : User) (h : PoolInv s)
    (hu : s.qhUsers u.uiSession = some u) : PoolInv (connectionClosed s u) := by
  have hr := h.live _ _ hu
  have hnot : u.uiSession ∉ s.qqIds := by
    intro hm
    have := (h.free _ hr.1 hr.2).1 hm
    rw [hu] at this; cases this
  refine ⟨?_, ?_, ?_, ?_⟩
  · simp only [connectionClosed]
    rw [List.nodup_append]
    refine ⟨h.nodup, List.nodup_singleton _, ?_⟩
    intro a ha hb
    rw [List.mem_singleton] at hb
    subst hb
    exact hnot ha
  · intro i hi
    simp only [connectionClosed, List.mem_append, List.mem_singleton] at hi
    rcases hi with hi | hi
    · exact h.range i hi
    · subst hi; exact hr
  · intro i v hi
    simp only [connectionClosed, tblSet] at hi
    by_cases hiu : i = u.uiSession
    · rw [if_pos hiu] at hi; cases hi
    · rw [if_neg hiu] at hi; exact h.live i v hi
  · intro i h1 h2
    simp only [connectionClosed, tblSet, List.mem_append, List.mem_singleton]
    by_cases hiu : i = u.uiSession
    · simp [hiu]
    · rw [if_neg hiu, ← h.free i h1 h2]
      simp [hiu]

theorem reachable_poolInv (K : MessageIds) (s : Server) (h : Reachable K s) : PoolInv s := by
  induction h with
  | fresh users bans => exact poolInv_fresh users bans
  | accept banCheck sock _ ih => exact poolInv_accept banCheck _ sock ih
  | datagram d _ _ ih => exact ih.of_sameDom (run_sameDom K _ d)
  | close u _ hu ih => exact poolInv_close _ u ih hu
  | control u v _ _ _ ih => exact ih.of_sameDom (setUser_sameDom _ _ _)

/-! ## The two secondary indices -/

theorem tableInv_fresh (users : Int) (bans : List (Nat × Int)) : TableInv (Server.fresh users bans) := by
  refine ⟨?_, ?_, ?_, ?_⟩ <;> simp [Server.fresh]

theorem sameBinding_refl (u : User) : sameBinding u u := ⟨rfl, rfl, rfl⟩

theorem checkDecrypt_binding (u : User) (pl : Option Plain) (now : Nat) :
    sameBinding u (checkDecrypt u pl now).user := by
  unfold checkDecrypt
  split
  · exact ⟨rfl, rfl, rfl⟩
  · split
    · split
      · exact ⟨rfl, rfl, rfl⟩
      · exact ⟨rfl, rfl, rfl⟩
    · exact ⟨rfl, rfl, rfl⟩

theorem tableInv_setUser (s : Server) (i : Nat) (u v : User) (h : TableInv s)
    (hu : s.qhUsers i = some u) (hb : sameBinding u v) : TableInv (s.setUser i v) := by
  obtain ⟨hb1, hb2, hb3⟩ := hb
  have hself := setUser_users_self s i v u hu
  refine ⟨?_, ?_, ?_, ?_⟩
  · intro j w hj
    by_cases hji : j = i
    · subst hji
      rw [hself] at hj
      cases hj
      rw [hb1]; exact h.ids j u hu
    · rw [setUser_users_ne s i j v hji] at hj
      exact h.ids j w hj
  · intro a j hj
    rw [setUser_host] at hj
    obtain ⟨w, hw, hwa⟩ := h.host a j hj
    by_cases hji : j = i
    · subst hji
      rw [hu] at hw; cases hw
      exact ⟨v, hself, by rw [hb2]; exact hwa⟩
    · exact ⟨w, by rw [setUser_users_ne s i j v hji]; exact hw, hwa⟩
  · intro a
    rw [setUser_host]; exact h.hostNodup a
  · intro k j hj
    rw [setUser_peer] at hj
    obtain ⟨w, hw, hk, hn⟩ := h.peer k j hj
    by_cases hji : j = i
    · subst hji
      rw [hu] at hw; cases hw
      exact ⟨v, hself, by rw [hb2, hb3]; exact hk, by rw [setUser_host, hb2]; exact hn⟩
    · exact ⟨w, by rw [setUser_users_ne s i j v hji]; exact hw, hk, by rw [setUser_host]; exact hn⟩

theorem mem_hostRemove {t : Nat → List Nat} {a u b j : Nat} :
    j ∈ hostRemove t a u b ↔ j ∈ t b ∧ (b = a → j ≠ u) := by
  unfold hostRemove
  by_cases hb : b = a
  · subst hb; simp
  · simp [hb]

theorem mem_hostInsert {t : Nat → List Nat} {a u b j : Nat} :
    j ∈ hostInsert t a u b ↔ j ∈ t b ∨ (b = a ∧ j = u) := by
  unfold hostInsert
  by_cases hb : b = a
  · subst hb
    by_cases hu : u ∈ t b
    · simp only [if_pos hu, if_true, true_and]
      constructor
      · intro h; exact Or.inl h
      · rintro (h | h)
        · exact h
        · rw [h]; exact hu
    · simp [hu]
  · simp [hb]

theorem tableInv_promote (s : Server) (d : Datagram) (i : Nat) (usr : User) (h : TableInv s)
    (hu : s.qhUsers i = some usr) (hi : i ∈ s.qhHostUsers d.sin_addr) :
    TableInv (promote s d i usr) := by
  have haddr : usr.sin_addr = d.sin_addr := by
    obtain ⟨w, hw, hwa⟩ := h.host _ _ hi
    rw [hu] at hw; cases hw; exact hwa
  have hself : (promote s d i usr).qhUsers i = some { usr with sin_port := d.sin_port } :=
    setUser_users_self _ i _ usr hu
  have hne : ∀ j, j ≠ i → (promote s d i usr).qhUsers j = s.qhUsers j :=
    fun j hj => setUser_users_ne _ i j _ hj
  have hhost : (promote s d i usr).qhHostUsers = hostRemove s.qhHostUsers d.sin_addr i := by
    unfold promote; rw [setUser_host]
  have hpeer : (promote s d i usr).qhPeerUsers =
      tblSet s.qhPeerUsers (peerKey d.sin_addr d.sin_port) (some i) := by
    unfold promote; rw [setUser_peer]
  refine ⟨?_, ?_, ?_, ?_⟩
  · intro j w hj
    by_cases hji : j = i
    · subst hji
      rw [hself] at hj; cases hj
      exact h.ids j usr hu
    · rw [hne j hji] at hj; exact h.ids j w hj
  · intro a j hj
    rw [hhost, mem_hostRemove] at hj
    obtain ⟨w, hw, hwa⟩ := h.host a j hj.1
    by_cases hji : j = i
    · subst hji
      rw [hu] at hw; cases hw
      exact ⟨_, hself, hwa⟩
    · exact ⟨w, by rw [hne j hji]; exact hw, hwa⟩
  · intro a
    rw [hhost]; unfold hostRemove
    by_cases ha : a = d.sin_addr
    · rw [if_pos ha]; exact (h.hostNodup _).filter _
    · rw [if_neg ha]; exact h.hostNodup a
  · intro k j hj
    rw [hpeer] at hj
    simp only [tblSet] at hj
    by_cases hk : k = peerKey d.sin_addr d.sin_port
    · rw [if_pos hk] at hj
      cases hj
      refine ⟨_, hself, by rw [hk, ← haddr], ?_⟩
      rw [hhost, mem_hostRemove]
      intro hc
      exact hc.2 haddr rfl
    · rw [if_neg hk] at hj
      obtain ⟨w, hw, hkw, hn⟩ := h.peer k j hj
      have hji : j ≠ i := by
        intro hji
        subst hji
        rw [hu] at hw; cases hw
        rw [haddr] at hn
        exact hn hi
      refine ⟨w, by rw [hne j hji]; exact hw, hkw, ?_⟩
      rw [hhost, mem_hostRemove]
      intro hc; exact hn hc.1


theorem tryCandidate_shape (d : Datagram) (st : Scan) (i : Nat) :
    (tryCandidate d st i).srv = st.srv ∨
    ∃ usr v, st.srv.qhUsers i = some usr ∧ sameBinding usr v ∧
      ((tryCandidate d st i).srv = st.srv.setUser i v ∨
       (tryCandidate d st i).srv = promote (st.srv.setUser i v) d i v) := by
  unfold tryCandidate
  split
  · exact Or.inl rfl
  · rename_i usr husr
    split
    · dsimp only
      refine Or.inr ⟨usr, _, husr, checkDecrypt_binding usr (d.decrypt i) d.now, ?_⟩
      split
      · split
        · split
          · exact Or.inr rfl
          · exact Or.inl rfl
        · exact Or.inl rfl
      · exact Or.inl rfl
    · exact Or.inl rfl

theorem tableInv_tryCandidate (d : Datagram) (st : Scan) (i : Nat) (h : TableInv st.srv)
    (hi : i ∈ st.srv.qhHostUsers d.sin_addr) : TableInv (tryCandidate d st i).srv := by
  rcases tryCandidate_shape d st i with h0 | ⟨usr, v, husr, hb, h1 | h1⟩
  · rw [h0]; exact h
  · rw [h1]; exact tableInv_setUser _ i usr v h husr hb
  · rw [h1]
    refine tableInv_promote _ d i v (tableInv_setUser _ i usr v h husr hb)
      (setUser_users_self _ i v usr husr) ?_
    rw [setUser_host]; exact hi

theorem tryCandidate_host_mem (d : Datagram) (st : Scan) (i j a : Nat) (hji : j ≠ i)
    (hj : j ∈ st.srv.qhHostUsers a) : j ∈ (tryCandidate d st i).srv.qhHostUsers a := by
  rcases tryCandidate_shape d st i with h0 | ⟨usr, v, _, _, h1 | h1⟩
  · rw [h0]; exact hj
  · rw [h1, setUser_host]; exact hj
  · rw [h1]; unfold promote
    rw [setUser_host]
    simp only [setUser_host]
    rw [mem_hostRemove]
    exact ⟨hj, fun _ => hji⟩

theorem tableInv_scan (d : Datagram) (cs : List Nat) (st : Scan) (h : TableInv st.srv)
    (hnd : cs.Nodup) (hcs : ∀ c ∈ cs, c ∈ st.srv.qhHostUsers d.sin_addr) :
    TableInv (cs.foldl (tryCandidate d) st).srv := by
  induction cs generalizing st with
  | nil => exact h
  | cons c cs ih =>
    rw [List.foldl_cons]
    have hc := List.nodup_cons.1 hnd
    refine ih _ (tableInv_tryCandidate d st c h (hcs c (List.mem_cons_self _ _))) hc.2 ?_
    intro j hj
    refine tryCandidate_host_mem d st c j _ ?_ (hcs j (List.mem_cons_of_mem _ hj))
    intro hjc; subst hjc; exact hc.1 hj

theorem tableInv_run (K : MessageIds) (s : Server) (d : Datagram) (h : TableInv s)
    (hperm : d.order.Perm (s.qhHostUsers d.sin_addr)) : TableInv (run K s d).srv := by
  unfold run
  split
  · exact h
  split
  · exact h
  split
  · exact h
  split
  · split
    · exact h
    · rename_i i _ _ u hu
      have := tableInv_setUser s i u _ h hu (checkDecrypt_binding u (d.decrypt i) d.now)
      dsimp only
      split
      · split <;> exact this
      · exact this
  · dsimp only
    have := tableInv_scan d d.order ⟨s, none, 0, 0, true, []⟩ h
      (hperm.nodup_iff.2 (h.hostNodup _)) (fun c hc => hperm.mem_iff.1 hc)
    split <;> exact this

theorem tableInv_accept (banCheck : Nat → Bool) (s : Server) (sock : Sock) (h : TableInv s)
    (hp : PoolInv s) : TableInv (newClientOne banCheck s sock).1 := by
  unfold newClientOne
  split
  · exact h
  split
  · exact h
  split
  · exact h
  · rename_i i rest hq
    have hi : i ∈ s.qqIds := by rw [hq]; exact List.mem_cons_self _ _
    have hir := hp.range i hi
    have hnone : s.qhUsers i = none := (hp.free i hir.1 hir.2).1 hi
    refine ⟨?_, ?_, ?_, ?_⟩
    · intro j w hj
      simp only [tblSet] at hj
      by_cases hji : j = i
      · rw [if_pos hji] at hj; cases hj; exact hji.symm
      · rw [if_neg hji] at hj; exact h.ids j w hj
    · intro a j hj
      simp only [tblSet]
      rw [mem_hostInsert] at hj
      by_cases hji : j = i
      · rw [if_pos hji]
        rcases hj with hj | hj
        · obtain ⟨w, hw, _⟩ := h.host a j hj
          rw [hji, hnone] at hw; cases hw
        · exact ⟨_, rfl, hj.1.symm⟩
      · rw [if_neg hji]
        rcases hj with hj | hj
        · exact h.host a j hj
        · exact absurd hj.2 hji
    · intro a
      simp only [hostInsert]
      by_cases ha : a = htonl sock.peerAddress
      · rw [if_pos ha]
        split
        · exact h.hostNodup _
        · rename_i hni
          rw [List.nodup_append]
          refine ⟨h.hostNodup _, List.nodup_singleton _, ?_⟩
          intro x hx hx2
          rw [List.mem_singleton] at hx2
          subst hx2
          exact hni hx
      · rw [if_neg ha]; exact h.hostNodup a
    · intro k j hj
      obtain ⟨w, hw, hk, hn⟩ := h.peer k j hj
      have hji : j ≠ i := by
        intro hji; rw [hji, hnone] at hw; cases hw
      refine ⟨w, by simp only [tblSet]; rw [if_neg hji]; exact hw, hk, ?_⟩
      simp only []
      rw [mem_hostInsert]
      rintro (hc | hc)
      · exact hn hc
      · exact hji hc.2

theorem tableInv_close (s : Server) (u : User) (h : TableInv s)
    (hu : s.qhUsers u.uiSession = some u) : TableInv (connectionClosed s u) := by
  refine ⟨?_, ?_, ?_, ?_⟩
  · intro j w hj
    simp only [connectionClosed, tblSet] at hj
    by_cases hji : j = u.uiSession
    · rw [if_pos hji] at hj; cases hj
    · rw [if_neg hji] at hj; exact h.ids j w hj
  · intro a j hj
    simp only [connectionClosed] at hj ⊢
    rw [mem_hostRemove] at hj
    obtain ⟨w, hw, hwa⟩ := h.host a j hj.1
    have hji : j ≠ u.uiSession := by
      intro hji
      rw [hji, hu] at hw; cases hw
      exact hj.2 hwa.symm hji
    exact ⟨w, by simp only [tblSet]; rw [if_neg hji]; exact hw, hwa⟩
  · intro a
    simp only [connectionClosed, hostRemove]
    by_cases ha : a = u.sin_addr
    · rw [if_pos ha]; exact (h.hostNodup _).filter _
    · rw [if_neg ha]; exact h.hostNodup a
  · intro k j hj
    simp only [connectionClosed, tblSet] at hj ⊢
    by_cases hk : k = peerKey u.sin_addr u.sin_port
    · rw [if_pos hk] at hj; cases hj
    · rw [if_neg hk] at hj
      obtain ⟨w, hw, hkw, hn⟩ := h.peer k j hj
      have hji : j ≠ u.uiSession := by
        intro hji
        rw [hji, hu] at hw; cases hw
        exact hk hkw
      refine ⟨w, by rw [if_neg hji]; exact hw, hkw, ?_⟩
      rw [mem_hostRemove]
      intro hc; exact hn hc.1

theorem reachable_tableInv (K : MessageIds) (s : Server) (h : Reachable K s) : TableInv s := by
  induction h with
  | fresh users bans => exact tableInv_fresh users bans
  | accept banCheck sock hr ih => exact tableInv_accept banCheck _ sock ih (reachable_poolInv K _ hr)
  | datagram d _ hperm ih => exact tableInv_run K _ d ih hperm
  | close u _ hu ih => exact tableInv_close _ u ih hu
  | control u v _ hu hb ih => exact tableInv_setUser _ _ u v ih hu hb

/-! ## Peer binding in `Server::run` -/

theorem peerKey_port_inj {a p q : Nat} (h : peerKey a p = peerKey a q) : p = q := by
  unfold peerKey at h
  exact Nat.xor_right_injective h

theorem promote_users_ne (s : Server) (d : Datagram) (i j : Nat) (u : User) (h : j ≠ i) :
    (promote s d i u).qhUsers j = s.qhUsers j := by
  unfold promote
  rw [setUser_users_ne _ i j _ h]

theorem promote_peer (s : Server) (d : Datagram) (i : Nat) (u : User) :
    (promote s d i u).qhPeerUsers = tblSet s.qhPeerUsers (peerKey d.sin_addr d.sin_port) (some i) := by
  unfold promote; rw [setUser_peer]

theorem promote_host (s : Server) (d : Datagram) (i : Nat) (u : User) :
    (promote s d i u).qhHostUsers = hostRemove s.qhHostUsers d.sin_addr i := by
  unfold promote; rw [setUser_host]

/-- A round of the candidate loop touches only the object of its candidate. -/
theorem tryCandidate_users_ne (d : Datagram) (st : Scan) (c j : Nat) (h : j ≠ c) :
    (tryCandidate d st c).srv.qhUsers j = st.srv.qhUsers j := by
  rcases tryCandidate_shape d st c with h0 | ⟨usr, v, _, _, h1 | h1⟩
  · rw [h0]
  · rw [h1, setUser_users_ne _ c j v h]
  · rw [h1, promote_users_ne _ d c j v h, setUser_users_ne _ c j v h]

/-- A round of the candidate loop writes `qhPeerUsers` only under the key of
the datagram's source. -/
theorem tryCandidate_peer_ne (d : Datagram) (st : Scan) (c k : Nat)
    (h : k ≠ peerKey d.sin_addr d.sin_port) :
    (tryCandidate d st c).srv.qhPeerUsers k = st.srv.qhPeerUsers k := by
  rcases tryCandidate_shape d st c with h0 | ⟨usr, v, _, _, h1 | h1⟩
  · rw [h0]
  · rw [h1, setUser_peer]
  · rw [h1, promote_peer, setUser_peer]; simp [tblSet, h]

theorem ids_tryCandidate (d : Datagram) (st : Scan) (c : Nat)
    (h : ∀ i u, st.srv.qhUsers i = some u → u.uiSession = i) :
    ∀ i u, (tryCandidate d st c).srv.qhUsers i = some u → u.uiSession = i := by
  intro i u hi
  by_cases hic : i = c
  · subst hic
    rcases tryCandidate_shape d st i with h0 | ⟨usr, v, husr, hb, h1 | h1⟩
    · rw [h0] at hi; exact h i u hi
    · rw [h1, setUser_users_self _ i v usr husr] at hi
      cases hi; rw [hb.1]; exact h i usr husr
    · have : (promote (st.srv.setUser i v) d i v).qhUsers i = some { v with sin_port := d.sin_port } :=
        setUser_users_self _ i _ v (setUser_users_self _ i v usr husr)
      rw [h1, this] at hi
      cases hi
      show v.uiSession = i
      rw [hb.1]; exact h i usr husr
  · rw [tryCandidate_users_ne d st c i hic] at hi; exact h i u hi

theorem checkDecrypt_bInit (u : User) (pl : Option Plain) (now : Nat) :
    (checkDecrypt u pl now).user.csCrypt.bInit = u.csCrypt.bInit := by
  unfold checkDecrypt CryptState.decrypt
  split
  · cases pl <;> rfl
  · split
    · split <;> rfl
    · rfl

theorem checkDecrypt_ok (u : User) (pl : Plain) (now : Nat) (h : u.csCrypt.bInit = true) :
    (checkDecrypt u (some pl) now).ok = true := by
  simp [checkDecrypt, CryptState.decrypt, h]

theorem checkDecrypt_fail_ok (u : User) (now : Nat) : (checkDecrypt u none now).ok = false := by
  unfold checkDecrypt CryptState.decrypt
  simp only [Bool.and_false]
  split
  · contradiction
  · split
    · split <;> rfl
    · rfl


/-- A candidate under whose cipher state the datagram decrypts to the
candidate's own id is promoted. -/
theorem tryCandidate_match (d : Datagram) (st : Scan) (i : Nat) (w : User) (pl : Plain)
    (hw : st.srv.qhUsers i = some w) (hinit : w.csCrypt.bInit = true)
    (hid : w.uiSession = i) (hdec : d.decrypt i = some pl) (hpl : pl.uiSession = i) :
    (tryCandidate d st i).srv =
      promote (st.srv.setUser i (checkDecrypt w (some pl) d.now).user) d i
        (checkDecrypt w (some pl) d.now).user := by
  have hok := checkDecrypt_ok w pl d.now hinit
  have hlive : ((st.srv.setUser i (checkDecrypt w (some pl) d.now).user).qhUsers i).isSome = true := by
    rw [setUser_users_self _ i _ w hw]; rfl
  unfold tryCandidate
  rw [hw]
  simp only [hinit, if_true, hdec, hok, hid, hpl, hlive]

/-- A candidate under whose cipher state the datagram does not decrypt to the
candidate's own id leaves both secondary indices alone. -/
theorem tryCandidate_nomatch (d : Datagram) (st : Scan) (c : Nat)
    (hids : ∀ i u, st.srv.qhUsers i = some u → u.uiSession = i)
    (hno : ∀ q, d.decrypt c = some q → q.uiSession ≠ c) :
    (tryCandidate d st c).srv.qhPeerUsers = st.srv.qhPeerUsers ∧
    (tryCandidate d st c).srv.qhHostUsers = st.srv.qhHostUsers := by
  unfold tryCandidate
  split
  · exact ⟨rfl, rfl⟩
  · rename_i usr husr
    split
    · dsimp only
      split
      · rename_i pl _ hpl
        split
        · rename_i heq
          exact absurd (heq.symm.trans (hids c usr husr)) (hno pl hpl)
        · exact ⟨setUser_peer _ _ _, setUser_host _ _ _⟩
      · exact ⟨setUser_peer _ _ _, setUser_host _ _ _⟩
    · exact ⟨rfl, rfl⟩

/-- The validity of the cipher state and the stored address of a live session
are the same after a round of the candidate loop. -/
theorem tryCandidate_keeps (d : Datagram) (st : Scan) (c i : Nat) (w : User)
    (hw : st.srv.qhUsers i = some w) :
    ∃ v, (tryCandidate d st c).srv.qhUsers i = some v ∧
      v.csCrypt.bInit = w.csCrypt.bInit ∧ v.sin_addr = w.sin_addr := by
  by_cases hic : i = c
  · subst hic
    unfold tryCandidate
    rw [hw]
    dsimp only
    have hb := checkDecrypt_bInit w (d.decrypt i) d.now
    have ha := (checkDecrypt_binding w (d.decrypt i) d.now).2.1
    have hs := setUser_users_self st.srv i (checkDecrypt w (d.decrypt i) d.now).user w hw
    split
    · split
      · split
        · split
          · exact ⟨_, setUser_users_self _ i _ _ hs, hb, ha⟩
          · exact ⟨_, hs, hb, ha⟩
        · exact ⟨_, hs, hb, ha⟩
      · exact ⟨_, hs, hb, ha⟩
    · exact ⟨w, hw, rfl, rfl⟩
  · exact ⟨w, by rw [tryCandidate_users_ne d st c i hic]; exact hw, rfl, rfl⟩

theorem scan_promotes (d : Datagram) (i : Nat) (pl : Plain)
    (hdec : d.decrypt i = some pl) (hpl : pl.uiSession = i) (cs : List Nat) (st : Scan)
    (hids : ∀ j u, st.srv.qhUsers j = some u → u.uiSession = j)
    (hpre : ∃ w, st.srv.qhUsers i = some w ∧ w.csCrypt.bInit = true ∧ w.sin_addr = d.sin_addr)
    (huniq : ∀ c ∈ cs, c ≠ i → ∀ q, d.decrypt c = some q → q.uiSession ≠ c)
    (h : i ∈ cs ∨ Promoted d i st.srv) :
    Promoted d i (cs.foldl (tryCandidate d) st).srv := by
  induction cs generalizing st with
  | nil =>
    rcases h with h | h
    · cases h
    · exact h
  | cons c cs ih =>
    rw [List.foldl_cons]
    obtain ⟨w, hw, hinit, haddr⟩ := hpre
    refine ih _ (ids_tryCandidate d st c hids) ?_
      (fun x hx => huniq x (List.mem_cons_of_mem _ hx)) ?_
    · obtain ⟨v, hv, hvb, hva⟩ := tryCandidate_keeps d st c i w hw
      exact ⟨v, hv, hvb.trans hinit, hva.trans haddr⟩
    · by_cases hci : c = i
      · subst hci
        right
        rw [tryCandidate_match d st c w pl hw hinit (hids c w hw) hdec hpl]
        refine ⟨by rw [promote_peer]; simp [tblSet], ?_,
          { (checkDecrypt w (some pl) d.now).user with sin_port := d.sin_port }, ?_, rfl, ?_⟩
        · rw [promote_host, mem_hostRemove]
          intro hc; exact hc.2 rfl rfl
        · exact setUser_users_self _ c _ _ (setUser_users_self _ c _ w hw)
        · exact (checkDecrypt_binding w (some pl) d.now).2.1.trans haddr
      · rcases h with h | h
        · left
          rcases List.mem_cons.1 h with h | h
          · exact absurd h.symm hci
          · exact h
        · right
          obtain ⟨hp, hh, u, hu, hport⟩ := h
          have hq := tryCandidate_nomatch d st c hids (huniq c (List.mem_cons_self _ _) hci)
          refine ⟨by rw [hq.1]; exact hp, by rw [hq.2]; exact hh, u, ?_, hport⟩
          rw [tryCandidate_users_ne d st c i (Ne.symm hci)]; exact hu

theorem scan_users_ne (d : Datagram) (i : Nat) (cs : List Nat) (st : Scan) (h : i ∉ cs) :
    (cs.foldl (tryCandidate d) st).srv.qhUsers i = st.srv.qhUsers i := by
  induction cs generalizing st with
  | nil => rfl
  | cons c cs ih =>
    rw [List.foldl_cons, ih _ (fun hc => h (List.mem_cons_of_mem _ hc))]
    exact tryCandidate_users_ne d st c i (fun hc => h (hc ▸ List.mem_cons_self _ _))

theorem scan_peer_ne (d : Datagram) (k : Nat) (hk : k ≠ peerKey d.sin_addr d.sin_port)
    (cs : List Nat) (st : Scan) :
    (cs.foldl (tryCandidate d) st).srv.qhPeerUsers k = st.srv.qhPeerUsers k := by
  induction cs generalizing st with
  | nil => rfl
  | cons c cs ih => rw [List.foldl_cons, ih, tryCandidate_peer_ne d st c k hk]

/-- For a datagram of at least six bytes from a source that is not a key of
`qhPeerUsers`, the table `run` leaves is the one the candidate loop leaves. -/
theorem run_unknown_srv (K : MessageIds) (s : Server) (d : Datagram) (hlen : 6 ≤ d.len)
    (hkey : s.qhPeerUsers (peerKey d.sin_addr d.sin_port) = none) :
    (run K s d).srv = (d.order.foldl (tryCandidate d) ⟨s, none, 0, 0, true, []⟩).srv := by
  unfold run
  rw [if_neg (by omega), if_neg (by omega), if_neg (by omega), hkey]
  dsimp only
  split <;> rfl

/-- A round of `run` leaves alone every session object that is neither the one
bound to the datagram's source nor among the candidates visited. -/
theorem run_users_ne (K : MessageIds) (s : Server) (d : Datagram) (i : Nat)
    (hp : s.qhPeerUsers (peerKey d.sin_addr d.sin_port) ≠ some i)
    (hh : i ∉ d.order) : (run K s d).srv.qhUsers i = s.qhUsers i := by
  unfold run
  split
  · rfl
  split
  · rfl
  split
  · rfl
  split
  · rename_i j hj
    have hij : i ≠ j := fun hc => hp (hc ▸ hj)
    split
    · rfl
    · dsimp only
      split
      · split <;> exact setUser_users_ne _ j i _ hij
      · exact setUser_users_ne _ j i _ hij
  · dsimp only
    have := scan_users_ne d i d.order ⟨s, none, 0, 0, true, []⟩ hh
    split <;> exact this

/-- A round of `run` writes `qhPeerUsers` only under the key of the datagram's
source. -/
theorem run_peer_ne (K : MessageIds) (s : Server) (d : Datagram) (k : Nat)
    (hk : k ≠ peerKey d.sin_addr d.sin_port) :
    (run K s d).srv.qhPeerUsers k = s.qhPeerUsers k := by
  unfold run
  split
  · rfl
  split
  · rfl
  split
  · rfl
  split
  · split
    · rfl
    · dsimp only
      split
      · split <;> exact congrFun (setUser_peer _ _ _) k
      · exact congrFun (setUser_peer _ _ _) k
  · dsimp only
    have := scan_peer_ne d k hk d.order ⟨s, none, 0, 0, true, []⟩
    split <;> exact this

/-- In a reachable table no session is in both secondary indices: a pointer
under the key of its stored peer is not in the host set of its stored
address. -/
theorem reachable_never_both (K : MessageIds) (s : Server) (h : Reachable K s) (i : Nat) (u : User)
    (hu : s.qhUsers i = some u)
    (hp : s.qhPeerUsers (peerKey u.sin_addr u.sin_port) = some i) :
    i ∉ s.qhHostUsers u.sin_addr := by
  obtain ⟨w, hw, _, hn⟩ := (reachable_tableInv K s h).peer _ i hp
  rw [hu] at hw
  cases hw
  exact hn

/-- A candidate under whose cipher state the datagram does not decrypt to the
candidate's own id leaves the pointer `u` of the round alone. -/
theorem tryCandidate_nomatch_u (d : Datagram) (st : Scan) (c : Nat)
    (hids : ∀ i u, st.srv.qhUsers i = some u → u.uiSession = i)
    (hno : ∀ q, d.decrypt c = some q → q.uiSession ≠ c) :
    (tryCandidate d st c).u = st.u := by
  unfold tryCandidate
  split
  · rfl
  · rename_i usr husr
    split
    · dsimp only
      split
      · rename_i pl _ hpl
        split
        · rename_i heq
          exact absurd (heq.symm.trans (hids c usr husr)) (hno pl hpl)
        · rfl
      · rfl
    · rfl

theorem scan_nomatch_u (d : Datagram) (cs : List Nat) (st : Scan)
    (hids : ∀ i u, st.srv.qhUsers i = some u → u.uiSession = i)
    (hno : ∀ c ∈ cs, ∀ q, d.decrypt c = some q → q.uiSession ≠ c) :
    (cs.foldl (tryCandidate d) st).u = st.u := by
  induction cs generalizing st with
  | nil => rfl
  | cons c cs ih =>
    rw [List.foldl_cons, ih _ (ids_tryCandidate d st c hids)
      (fun x hx => hno x (List.mem_cons_of_mem _ hx))]
    exact tryCandidate_nomatch_u d st c hids (hno c (List.mem_cons_self _ _))

/-- A round of `run` in which the datagram decrypts to its own id neither
under the session bound to its source nor under a candidate visited ends
without echo and without voice dispatch. -/
theorem run_nomatch_drop (K : MessageIds) (s : Server) (d : Datagram)
    (hids : ∀ i u, s.qhUsers i = some u → u.uiSession = i) (hlen : 6 ≤ d.len)
    (hknown : ∀ c, s.qhPeerUsers (peerKey d.sin_addr d.sin_port) = some c →
      ∀ q, d.decrypt c = some q → q.uiSession ≠ c)
    (hcand : ∀ c ∈ d.order, ∀ q, d.decrypt c = some q → q.uiSession ≠ c) :
    (run K s d).act = Action.drop := by
  unfold run
  rw [if_neg (by omega), if_neg (by omega), if_neg (by omega)]
  split
  · rename_i j hj
    split
    · rfl
    · rename_i w hw
      dsimp only
      split
      · rename_i pl _ hpl
        rw [if_pos]
        rw [hids j w hw]
        exact fun hc => hknown j hj pl hpl hc.symm
      · rfl
  · dsimp only
    rw [scan_nomatch_u d d.order ⟨s, none, 0, 0, true, []⟩ hids hcand]

/-! ## Capacity of the free pool -/

theorem afterAllocs_fresh (users : Int) (bans : List (Nat × Int)) :
    AfterAllocs bans 0 (Server.fresh users bans) := by
  refine ⟨rfl, rfl, ?_⟩
  intro i
  simp only [Server.fresh, Option.isSome_none]
  constructor
  · intro h; cases h
  · intro h; omega

theorem newClientOne_alloc (banCheck : Nat → Bool) (bans : List (Nat × Int)) (m : Nat) (s : Server)
    (sock : Sock) (h : AfterAllocs bans m s) (hm : m < 4999)
    (hg : banCheck sock.peerAddress = false) (hl : banLoop sock.peerAddress bans = false) :
    (newClientOne banCheck s sock).2 = Verdict.accepted (m + 1) ∧
    AfterAllocs bans (m + 1) (newClientOne banCheck s sock).1 := by
  obtain ⟨hb, hq, hu⟩ := h
  have hq2 : s.qqIds = (m + 1) :: List.range' (m + 2) (4999 - (m + 1)) := by
    rw [hq]
    have : 4999 - m = (4999 - (m + 1)) + 1 := by omega
    rw [this, List.range'_succ]
  unfold newClientOne
  rw [hg, hb, hl, hq2]
  simp only [Bool.false_eq_true, if_false, true_and]
  refine ⟨rfl, rfl, ?_⟩
  intro i
  simp only [tblSet]
  by_cases hi : i = m + 1
  · simp [hi]
  · rw [if_neg hi, hu i]; omega

theorem newClientOne_full (banCheck : Nat → Bool) (bans : List (Nat × Int)) (s : Server)
    (sock : Sock) (h : AfterAllocs bans 4999 s)
    (hg : banCheck sock.peerAddress = false) (hl : banLoop sock.peerAddress bans = false) :
    newClientOne banCheck s sock = (s, Verdict.full) ∧ s.qqIds = [] := by
  obtain ⟨hb, hq, _⟩ := h
  have hq2 : s.qqIds = [] := by rw [hq]; rfl
  unfold newClientOne
  rw [hg, hb, hl, hq2]
  simp

theorem accepts_afterAllocs (banCheck : Nat → Bool) (bans : List (Nat × Int)) (socks : List Sock)
    (m : Nat) (s : Server) (h : AfterAllocs bans m s) (hm : m + socks.length ≤ 4999)
    (hban : ∀ sock ∈ socks, banCheck sock.peerAddress = false ∧ banLoop sock.peerAddress bans = false) :
    AfterAllocs bans (m + socks.length) (accepts banCheck s socks) := by
  induction socks generalizing m s with
  | nil => exact h
  | cons sock socks ih =>
    simp only [List.length_cons] at hm ⊢
    have hs := hban sock (List.mem_cons_self _ _)
    have h1 := (newClientOne_alloc banCheck bans m s sock h (by omega) hs.1 hs.2).2
    have := ih (m + 1) _ h1 (by omega) (fun x hx => hban x (List.mem_cons_of_mem _ hx))
    have e : m + (socks.length + 1) = m + 1 + socks.length := by omega
    rw [e]
    exact this

theorem reachable_accepts (K : MessageIds) (banCheck : Nat → Bool) (socks : List Sock) (s : Server)
    (h : Reachable K s) : Reachable K (accepts banCheck s socks) := by
  induction socks generalizing s with
  | nil => exact h
  | cons sock socks ih => exact ih _ (Reachable.accept banCheck sock h)

/-! ## The local ban filter -/

theorem banMask_eq (n : Int) (h1 : 1 ≤ n) (h32 : n ≤ 32) :
    banMask n = 2 ^ (32 - n).toNat - 1 := by
  unfold banMask
  have hk : (32 - n).toNat ≤ 31 := by omega
  have hp : 2 ^ (32 - n).toNat ≤ 2 ^ 31 := Nat.pow_le_pow_right (by decide) hk
  have hpos : 0 < 2 ^ (32 - n).toNat := Nat.pow_pos (by decide)
  have e : 2 ^ (32 - n).toNat + 2 ^ 32 - 1 = (2 ^ (32 - n).toNat - 1) + 2 ^ 32 := by omega
  rw [e, Nat.add_mod_right]
  apply Nat.mod_eq_of_lt
  have : (2:Nat) ^ 31 < 2 ^ 32 := by decide
  omega

theorem testBit_notMask (k j : Nat) (hk : k ≤ 31) :
    (2 ^ 32 - 1 - (2 ^ k - 1)).testBit j = (decide (j < 32) && !decide (j < k)) := by
  have hlt : 2 ^ k - 1 < 2 ^ 32 := by
    have : 2 ^ k ≤ 2 ^ 31 := Nat.pow_le_pow_right (by decide) hk
    have : (2:Nat) ^ 31 < 2 ^ 32 := by decide
    omega
  have e : 2 ^ 32 - 1 - (2 ^ k - 1) = 2 ^ 32 - ((2 ^ k - 1) + 1) := by omega
  rw [e, Nat.testBit_two_pow_sub_succ hlt, Nat.testBit_two_pow_sub_one]

/-- Masking with `~mask` keeps exactly the bits `k .. 31`. -/
theorem and_notMask_eq_iff (a b k : Nat) (hk : k ≤ 31) :
    a &&& (2 ^ 32 - 1 - (2 ^ k - 1)) = b &&& (2 ^ 32 - 1 - (2 ^ k - 1)) ↔
      ∀ j, k ≤ j → j < 32 → a.testBit j = b.testBit j := by
  constructor
  · intro h j hkj hj
    have := congrArg (fun x => Nat.testBit x j) h
    simp only [Nat.testBit_and, testBit_notMask k j hk] at this
    have h1 : decide (j < 32) = true := by simp [hj]
    have h2 : decide (j < k) = false := by simp; omega
    rw [h1, h2] at this
    simpa using this
  · intro h
    apply Nat.eq_of_testBit_eq
    intro j
    simp only [Nat.testBit_and, testBit_notMask k j hk]
    by_cases hj : j < 32
    · by_cases hkj : j < k
      · simp [hkj]
      · rw [h j (by omega) hj]
    · simp [hj]

theorem shiftRight_eq_iff (a b k : Nat) (ha : a < 2 ^ 32) (hb : b < 2 ^ 32) :
    a >>> k = b >>> k ↔ ∀ j, k ≤ j → j < 32 → a.testBit j = b.testBit j := by
  constructor
  · intro h j hkj _
    have := congrArg (fun x => Nat.testBit x (j - k)) h
    simp only [Nat.testBit_shiftRight] at this
    rwa [show k + (j - k) = j by omega] at this
  · intro h
    apply Nat.eq_of_testBit_eq
    intro j
    simp only [Nat.testBit_shiftRight]
    by_cases hj : k + j < 32
    · exact h (k + j) (by omega) hj
    · have h32 : (2:Nat) ^ 32 ≤ 2 ^ (k + j) := Nat.pow_le_pow_right (by decide) (by omega)
      rw [Nat.testBit_lt_two_pow (lt_of_lt_of_le ha h32),
        Nat.testBit_lt_two_pow (lt_of_lt_of_le hb h32)]

theorem banLoop_iff (base : Nat) (bans : List (Nat × Int)) :
    banLoop base bans = true ↔ ∃ b ∈ bans, banTest base b = true := by
  induction bans with
  | nil => simp [banLoop]
  | cons b bs ih =>
    unfold banLoop
    by_cases hb : banTest base b = true
    · simp [hb]
    · rw [if_neg hb, ih]
      simp [hb]

theorem newClientOne_localBan (banCheck : Nat → Bool) (s : Server) (sock : Sock) :
    (newClientOne banCheck s sock).2 = Verdict.localBan ↔
      banCheck sock.peerAddress = false ∧ banLoop sock.peerAddress s.qlBans = true := by
  unfold newClientOne
  by_cases hg : banCheck sock.peerAddress = true
  · simp [hg]
  · by_cases hl : banLoop sock.peerAddress s.qlBans = true
    · simp [hg, hl]
    · rw [if_neg hg, if_neg hl]
      split <;> simp [hl]

/-! ## The bandwidth ring -/

theorem sum_set_add (l : List Nat) (i v : Nat) (h : i < l.length) :
    (l.set i v).sum + l.getD i 0 = l.sum + v := by
  induction l generalizing i with
  | nil => simp at h
  | cons a l ih =>
    cases i with
    | zero => simp [List.set]; omega
    | succ i =>
      have := ih i (by simpa using h)
      simp only [List.set, List.sum_cons, List.getD_cons_succ]
      omega

theorem succ_mod_cursor (n N : Nat) (hN : 0 < N) :
    (if n % N + 1 = N then 0 else n % N + 1) = (n + 1) % N := by
  have hlt := Nat.mod_lt n hN
  have hdiv := Nat.div_add_mod n N
  split
  · rename_i h
    have : n + 1 = N * (n / N + 1) := by
      rw [Nat.mul_add, Nat.mul_one]
      generalize n % N = r at *
      generalize N * (n / N) = m at *
      omega
    rw [this, Nat.mul_mod_right]
  · rename_i h
    have : n + 1 = N * (n / N) + (n % N + 1) := by
      generalize n % N = r at *
      generalize N * (n / N) = m at *
      omega
    have hr : n % N + 1 < N := by omega
    rw [this, Nat.mul_add_mod, Nat.mod_eq_of_lt hr]

theorem getD_replicate_zero (N j : Nat) : (List.replicate N 0).getD j 0 = 0 := by
  rw [List.getD_eq_getElem?_getD, List.getElem?_replicate]
  split <;> rfl

theorem mod_ne_of_between (n i N : Nat) (h1 : n < i) (h2 : i < n + N) : i % N ≠ n % N := by
  intro h
  have h0 : (i - n) % N = 0 := Nat.sub_mod_eq_zero_of_mod_eq h
  rw [Nat.mod_eq_of_lt (by omega)] at h0
  omega

theorem ringInv_fresh (N t0 : Nat) : RingInv N [] (BandwidthRecord.fresh N t0) := by
  refine ⟨by simp [BandwidthRecord.fresh], by simp [BandwidthRecord.fresh], ?_, ?_, ?_⟩
  · simp [BandwidthRecord.fresh]
  · intro i _ _
    simp only [BandwidthRecord.fresh, List.append_nil]
    rw [getD_replicate_zero, getD_replicate_zero]
  · simp [BandwidthRecord.fresh]

theorem ringInv_addFrame (N : Nat) (hN : 0 < N) (vs : List Nat) (b : BandwidthRecord)
    (size : Int) (now : Nat) (h : RingInv N vs b) :
    RingInv N (vs ++ [toUChar size]) (b.addFrame N size now) := by
  have hcur : b.iRecNum < b.a_iBW.length := by
    rw [h.len, h.cursor]; exact Nat.mod_lt _ hN
  have hpadlen : (List.replicate N 0 ++ vs).length = N + vs.length := by simp
  have hold : b.a_iBW.getD b.iRecNum 0 = (List.replicate N 0 ++ vs).getD vs.length 0 := by
    rw [h.cursor]; exact h.content vs.length (le_refl _) (by omega)
  have hdrop : ((List.replicate N 0 ++ vs).drop vs.length).sum =
      (List.replicate N 0 ++ vs).getD vs.length 0 +
        ((List.replicate N 0 ++ vs).drop (vs.length + 1)).sum := by
    have hlt : vs.length < (List.replicate N 0 ++ vs).length := by rw [hpadlen]; omega
    rw [List.drop_eq_getElem_cons hlt, List.sum_cons, List.getD_eq_getElem _ _ hlt]
  refine ⟨?_, ?_, ?_, ?_, ?_⟩
  · simp [BandwidthRecord.addFrame, h.len]
  · simp only [BandwidthRecord.addFrame, List.length_append, List.length_singleton]
    rw [h.cursor]; exact succ_mod_cursor _ _ hN
  · have := sum_set_add b.a_iBW b.iRecNum (toUChar size) hcur
    simp only [BandwidthRecord.addFrame]
    rw [h.slots]
    omega
  · intro i hi1 hi2
    simp only [List.length_append, List.length_singleton] at hi1 hi2
    simp only [BandwidthRecord.addFrame]
    by_cases hi : i = vs.length + N
    · subst hi
      rw [Nat.add_mod_right, ← h.cursor, List.getD_eq_getElem?_getD, List.getElem?_set_self hcur,
        ← List.append_assoc, List.getD_eq_getElem?_getD,
        List.getElem?_append_right (by rw [hpadlen]; omega)]
      simp [hpadlen, Nat.add_comm]
    · have hne : i % N ≠ b.iRecNum := by
        rw [h.cursor]; exact mod_ne_of_between _ _ _ (by omega) (by omega)
      have hR : ((List.replicate N 0 ++ vs) ++ [toUChar size]).getD i 0 =
          (List.replicate N 0 ++ vs).getD i 0 := by
        rw [List.getD_eq_getElem?_getD, List.getD_eq_getElem?_getD,
          List.getElem?_append_left (by rw [hpadlen]; omega)]
      rw [List.getD_eq_getElem?_getD, List.getElem?_set_ne (Ne.symm hne),
        ← List.getD_eq_getElem?_getD, h.content i (by omega) (by omega), ← List.append_assoc, hR]
  · simp only [BandwidthRecord.addFrame, List.length_append, List.length_singleton]
    have hD : ((List.replicate N 0 ++ vs) ++ [toUChar size]).drop (vs.length + 1) =
        (List.replicate N 0 ++ vs).drop (vs.length + 1) ++ [toUChar size] :=
      List.drop_append_of_le_length (by rw [hpadlen]; omega)
    rw [h.recent, hold, hdrop, ← List.append_assoc, hD, List.sum_append, List.sum_singleton]
    push_cast
    omega

theorem after_snoc (N t0 : Nat) (fs : List (Int × Nat)) (f : Int × Nat) :
    BandwidthRecord.after N t0 (fs ++ [f]) = (BandwidthRecord.after N t0 fs).addFrame N f.1 f.2 := by
  simp [BandwidthRecord.after, List.foldl_append]

theorem ringInv_after (N t0 : Nat) (hN : 0 < N) (fs : List (Int × Nat)) :
    RingInv N (fs.map (fun f => toUChar f.1)) (BandwidthRecord.after N t0 fs) := by
  induction fs using List.reverseRecOn with
  | nil => exact ringInv_fresh N t0
  | append_singleton fs f ih =>
    rw [after_snoc, List.map_append]
    exact ringInv_addFrame N hN _ _ f.1 f.2 ih

theorem padded_drop_sum (N : Nat) (vs : List Nat) :
    ((List.replicate N 0 ++ vs).drop vs.length).sum = (lastN (min vs.length N) vs).sum := by
  unfold lastN
  by_cases h : vs.length ≤ N
  · rw [Nat.min_eq_left h, Nat.sub_self, List.drop_zero,
      List.drop_append_of_le_length (by simpa using h), List.sum_append]
    simp
  · have hlt : N ≤ vs.length := by omega
    rw [Nat.min_eq_right hlt]
    have : vs.length = (List.replicate N 0).length + (vs.length - N) := by simp; omega
    conv_lhs => rw [this, List.drop_append]

/-- The running sum never leaves `[0, 255 * N]`, so the 32-bit `int` holding it
does not wrap for any ring of fewer than `2 ^ 31 / 255` slots. -/
theorem iSum_bounds (N t0 : Nat) (hN : 0 < N) (fs : List (Int × Nat)) :
    0 ≤ (BandwidthRecord.after N t0 fs).iSum ∧ (BandwidthRecord.after N t0 fs).iSum ≤ 255 * N := by
  have h := ringInv_after N t0 hN fs
  rw [h.recent, padded_drop_sum]
  refine ⟨Int.natCast_nonneg _, ?_⟩
  have hb : ∀ x ∈ lastN (min (fs.map (fun f => toUChar f.1)).length N)
      (fs.map (fun f => toUChar f.1)), x ≤ 255 := by
    intro x hx
    have hx2 := List.mem_of_mem_drop hx
    rw [List.mem_map] at hx2
    obtain ⟨f, _, rfl⟩ := hx2
    unfold toUChar
    omega
  have hlen : (lastN (min (fs.map (fun f => toUChar f.1)).length N)
      (fs.map (fun f => toUChar f.1))).length ≤ N := by
    unfold lastN
    rw [List.length_drop]
    omega
  have := List.sum_le_card_nsmul _ 255 hb
  simp only [smul_eq_mul] at this
  have h2 : (lastN (min (fs.map (fun f => toUChar f.1)).length N)
      (fs.map (fun f => toUChar f.1))).length * 255 ≤ N * 255 := Nat.mul_le_mul_right _ hlen
  omega

/-- Past the authentication and mute returns, `processMsg` charges
`20 + 8 + 4 + pds.capacity()` bytes to the speaker's record. -/
theorem processMsg_charges (F : SpeexFlags) (N : Nat) (w : World) (u : User)
    (flags capacity now later : Nat) (hauth : u.sState = PlayerState.Authenticated)
    (hmute : u.bMute = false) (hsup : u.bSuppressed = false) :
    (processMsg F N w (some u) flags capacity now later).bwr =
      some (u.bwr.addFrame N (20 + 8 + 4 + (capacity : Int)) now) := by
  simp only [processMsg, hauth, hmute, hsup]
  simp only [ne_eq, not_true_eq_false, if_false, Bool.or_self, Bool.false_eq_true]
  split
  · rfl
  · split
    · rfl
    · split <;> rfl

/-! ## The fan-out of `processMsg` -/

theorem processMsg_fanout (F : SpeexFlags) (N : Nat) (w : World) (u : User)
    (flags capacity now later : Nat) (rate : Int)
    (hauth : u.sState = PlayerState.Authenticated) (hmute : u.bMute = false)
    (hsup : u.bSuppressed = false)
    (hrate : (u.bwr.addFrame N (20 + 8 + 4 + (capacity : Int)) now).bytesPerSec later = some rate)
    (hmax : rate ≤ w.iMaxBandwidth) (hloop : flags &&& F.LoopBack = 0) :
    (processMsg F N w (some u) flags capacity now later).sends = fanout F w u flags := by
  simp only [processMsg, hauth, hmute, hsup, hrate, hloop]
  simp [not_lt.2 hmax, fanout]

theorem processMsg_loopback (F : SpeexFlags) (N : Nat) (w : World) (u : User)
    (flags capacity now later : Nat) (rate : Int)
    (hauth : u.sState = PlayerState.Authenticated) (hmute : u.bMute = false)
    (hsup : u.bSuppressed = false)
    (hrate : (u.bwr.addFrame N (20 + 8 + 4 + (capacity : Int)) now).bytesPerSec later = some rate)
    (hmax : rate ≤ w.iMaxBandwidth) (hloop : flags &&& F.LoopBack ≠ 0) :
    (processMsg F N w (some u) flags capacity now later).sends = [u.uiSession] := by
  simp only [processMsg, hauth, hmute, hsup, hrate]
  simp [not_lt.2 hmax, hloop]

/-- Whatever the input, the recipients of one call are none, the speaker
alone (Loopback), or the fan-out with the Loopback bit clear. -/
theorem processMsg_sends_cases (F : SpeexFlags) (N : Nat) (w : World) (cCon : Option User)
    (flags capacity now later : Nat) :
    (processMsg F N w cCon flags capacity now later).sends = [] ∨
    (∃ u, cCon = some u ∧ flags &&& F.LoopBack ≠ 0 ∧
      (processMsg F N w cCon flags capacity now later).sends = [u.uiSession]) ∨
    (∃ u, cCon = some u ∧ flags &&& F.LoopBack = 0 ∧
      (processMsg F N w cCon flags capacity now later).sends = fanout F w u flags) := by
  unfold processMsg
  split
  · exact Or.inl rfl
  · rename_i u
    split
    · exact Or.inl rfl
    split
    · exact Or.inl rfl
    dsimp only
    split
    · exact Or.inl rfl
    split
    · exact Or.inl rfl
    split
    · rename_i h
      exact Or.inr (Or.inl ⟨u, rfl, h, rfl⟩)
    · rename_i h
      exact Or.inr (Or.inr ⟨u, rfl, not_not.1 h, rfl⟩)

theorem mem_ownSends {w : World} {u : User} {p : Nat} :
    p ∈ ownSends w u ↔ p ∈ w.qlPlayers u.cChannel ∧ hears w p = true ∧ p ≠ u.uiSession := by
  simp [ownSends, and_assoc]

theorem mem_linkSends {F : SpeexFlags} {w : World} {u : User} {flags l p : Nat} :
    p ∈ linkSends F w u flags l ↔
      w.hasPermission u.uiSession l (wantedPerm F flags) = true ∧ p ∈ w.qlPlayers l ∧
        hears w p = true := by
  unfold linkSends
  split
  · rename_i h; simp [h]
  · rename_i h; simp [h]

theorem mem_linkedChans {w : World} {c l : Nat} :
    l ∈ linkedChans w c ↔ w.qhLinksEmpty c = false ∧ l ∈ w.allLinks c ∧ l ≠ c := by
  unfold linkedChans
  split
  · rename_i h; simp [h]
  · rename_i h; simp [h]

theorem mem_fanout {F : SpeexFlags} {w : World} {u : User} {flags p : Nat} :
    p ∈ fanout F w u flags ↔
      (p ∈ w.qlPlayers u.cChannel ∧ hears w p = true ∧ p ≠ u.uiSession) ∨
      ∃ l, l ∈ linkedChans w u.cChannel ∧
        w.hasPermission u.uiSession l (wantedPerm F flags) = true ∧ p ∈ w.qlPlayers l ∧
        hears w p = true := by
  unfold fanout
  rw [List.mem_append, mem_ownSends, List.mem_flatMap]
  simp only [mem_linkSends]

theorem hears_iff (w : World) (p : Nat) :
    hears w p = true ↔ (w.player p).bDeaf = false ∧ (w.player p).bSelfDeaf = false := by
  unfold hears
  cases (w.player p).bDeaf <;> cases (w.player p).bSelfDeaf <;> simp

theorem linkedChans_nodup (w : World) (c : Nat) (h : (w.allLinks c).Nodup) :
    (linkedChans w c).Nodup := by
  unfold linkedChans
  split
  · exact List.nodup_nil
  · exact h.filter _

theorem linkSends_nodup (F : SpeexFlags) (w : World) (u : User) (flags l : Nat)
    (h : (w.qlPlayers l).Nodup) : (linkSends F w u flags l).Nodup := by
  unfold linkSends
  split
  · exact h.filter _
  · exact List.nodup_nil

theorem fanout_nodup (F : SpeexFlags) (w : World) (u : User) (flags : Nat)
    (H1 : ∀ c, (w.qlPlayers c).Nodup)
    (H2 : ∀ c1 c2 p, p ∈ w.qlPlayers c1 → p ∈ w.qlPlayers c2 → c1 = c2)
    (H3 : ∀ c, (w.allLinks c).Nodup) : (fanout F w u flags).Nodup := by
  unfold fanout
  rw [List.nodup_append]
  refine ⟨(H1 _).filter _, ?_, ?_⟩
  · rw [List.nodup_flatMap]
    refine ⟨fun l _ => linkSends_nodup F w u flags l (H1 l), ?_⟩
    refine (linkedChans_nodup w _ (H3 _)).imp ?_
    intro a b hab p hpa hpb
    exact hab (H2 a b p (mem_linkSends.1 hpa).2.1 (mem_linkSends.1 hpb).2.1)
  · intro p hp1 hp2
    obtain ⟨l, hl, hpl⟩ := List.mem_flatMap.1 hp2
    exact (mem_linkedChans.1 hl).2.2
      (H2 l _ p (mem_linkSends.1 hpl).2.1 (mem_ownSends.1 hp1).1)

/-! ## The resync throttle of `checkDecrypt` -/

theorem checkDecrypt_fail (u : User) (t : Nat) :
    (checkDecrypt u none t).ok = false ∧
    ((checkDecrypt u none t).reqSync = true ↔
      5000000 < t - u.csCrypt.tLastGood ∧ 5000000 < t - u.csCrypt.tLastRequest) ∧
    ((checkDecrypt u none t).reqSync = true →
      (checkDecrypt u none t).user = { u with csCrypt := { u.csCrypt with tLastRequest := t } }) ∧
    ((checkDecrypt u none t).reqSync = false → (checkDecrypt u none t).user = u) := by
  unfold checkDecrypt CryptState.decrypt
  simp only [Bool.and_false]
  by_cases h1 : 5000000 < t - u.csCrypt.tLastGood
  · by_cases h2 : 5000000 < t - u.csCrypt.tLastRequest
    · simp [h1, h2]
    · simp [h1, h2]
  · simp [h1]

theorem failedDecrypts_policy (u : User) (ts : List Nat) :
    (failedDecrypts u ts).1 = resyncPolicy u.csCrypt.tLastGood u.csCrypt.tLastRequest ts := by
  induction ts generalizing u with
  | nil => rfl
  | cons t ts ih =>
    obtain ⟨_, hiff, hyes, hno⟩ := checkDecrypt_fail u t
    unfold failedDecrypts resyncPolicy
    by_cases h : (checkDecrypt u none t).reqSync = true
    · rw [if_pos (hiff.1 h), h, ih, hyes h]
    · rw [if_neg (fun hc => h (hiff.2 hc))]
      have hf : (checkDecrypt u none t).reqSync = false := by simpa using h
      rw [hf, ih, hno hf]

theorem policy_after_request (g r : Nat) (ts : List Nat) :
    ∀ b ∈ emissionTimes ts (resyncPolicy g r ts), r + 5000000 < b := by
  induction ts generalizing r with
  | nil => intro b hb; simp [resyncPolicy, emissionTimes] at hb
  | cons t ts ih =>
    intro b hb
    unfold resyncPolicy at hb
    split at hb
    · rename_i h
      simp only [emissionTimes, List.mem_cons] at hb
      rcases hb with hb | hb
      · omega
      · have := ih t b hb
        omega
    · simp only [emissionTimes] at hb
      exact ih r b hb

theorem policy_spacing (g r : Nat) (ts : List Nat) :
    (emissionTimes ts (resyncPolicy g r ts)).Pairwise (fun a b => a + 5000000 < b) := by
  induction ts generalizing r with
  | nil => simp [resyncPolicy, emissionTimes]
  | cons t ts ih =>
    unfold resyncPolicy
    split
    · simp only [emissionTimes, List.pairwise_cons]
      exact ⟨policy_after_request g t ts, ih t⟩
    · simp only [emissionTimes]
      exact ih r

/-! ## The Ping echo of `Server::run` -/

theorem dispatch_ping (K : MessageIds) (s : Server) (i uiSession : Nat) (len : Int) :
    dispatch K s i K.Ping uiSession true len = Action.ping i len := by
  simp [dispatch]

/-- Known peer: an accepted Ping from a source that is a key of `qhPeerUsers`
goes to `sendMessage` with the received length itself. -/
theorem run_ping_bound (K : MessageIds) (s : Server) (d : Datagram) (i : Nat) (u : User)
    (pl : Plain) (hlen : 6 ≤ d.len)
    (hkey : s.qhPeerUsers (peerKey d.sin_addr d.sin_port) = some i)
    (hu : s.qhUsers i = some u) (hinit : u.csCrypt.bInit = true)
    (hdec : d.decrypt i = some pl) (hid : pl.uiSession = u.uiSession)
    (hty : pl.msgType = K.Ping) (hvalid : pl.valid = true) :
    (run K s d).act = Action.ping i d.len ∧
    (run K s d).srv.qhUsers i = some (checkDecrypt u (some pl) d.now).user := by
  have hok := checkDecrypt_ok u pl d.now hinit
  unfold run
  rw [if_neg (by omega), if_neg (by omega), if_neg (by omega), hkey]
  simp only [hu, hdec, hok, hid, hty, hvalid, ne_eq, not_true_eq_false, if_false]
  exact ⟨dispatch_ping K _ i _ _, setUser_users_self _ i _ u hu⟩

theorem pingEcho_bound (K : MessageIds) (s : Server) (d : Datagram) (i : Nat) (u : User)
    (pl : Plain) (hlen : 6 ≤ d.len)
    (hkey : s.qhPeerUsers (peerKey d.sin_addr d.sin_port) = some i)
    (hu : s.qhUsers i = some u) (hinit : u.csCrypt.bInit = true)
    (hdec : d.decrypt i = some pl) (hid : pl.uiSession = u.uiSession)
    (hty : pl.msgType = K.Ping) (hvalid : pl.valid = true) (hport : u.sin_port ≠ 0) :
    pingEcho (run K s d) = some (Wire.udp u.sin_addr u.sin_port (d.len + 4)) := by
  obtain ⟨hact, husr⟩ := run_ping_bound K s d i u pl hlen hkey hu hinit hdec hid hty hvalid
  have hb := checkDecrypt_binding u (some pl) d.now
  have hi := checkDecrypt_bInit u (some pl) d.now
  unfold pingEcho
  rw [hact]
  simp only [husr]
  unfold sendMessage
  rw [if_pos ⟨by rw [hb.2.2]; exact hport, by rw [hi]; exact hinit⟩, hb.2.1, hb.2.2]

theorem tryCandidate_match_scan (d : Datagram) (st : Scan) (i : Nat) (w : User) (pl : Plain)
    (hw : st.srv.qhUsers i = some w) (hinit : w.csCrypt.bInit = true)
    (hid : w.uiSession = i) (hdec : d.decrypt i = some pl) (hpl : pl.uiSession = i) :
    ScanDone i pl (tryCandidate d st i) := by
  have hok := checkDecrypt_ok w pl d.now hinit
  have hlive : ((st.srv.setUser i (checkDecrypt w (some pl) d.now).user).qhUsers i).isSome = true := by
    rw [setUser_users_self _ i _ w hw]; rfl
  have hq : (promote (st.srv.setUser i (checkDecrypt w (some pl) d.now).user) d i
      (checkDecrypt w (some pl) d.now).user).qhUsers i =
      some { (checkDecrypt w (some pl) d.now).user with sin_port := d.sin_port } :=
    setUser_users_self _ i _ _ (setUser_users_self _ i _ w hw)
  have hlive2 : ((promote (st.srv.setUser i (checkDecrypt w (some pl) d.now).user) d i
      (checkDecrypt w (some pl) d.now).user).qhUsers i).isSome = true := by
    rw [hq]; rfl
  unfold tryCandidate
  rw [hw]
  simp only [hinit, if_true, hdec, hok, hid, hpl, hlive, hlive2]
  exact ⟨rfl, rfl, hpl.symm, rfl⟩

theorem tryCandidate_silent (d : Datagram) (st : Scan) (c : Nat) (hno : d.decrypt c = none) :
    (tryCandidate d st c).u = st.u ∧ (tryCandidate d st c).msgType = st.msgType ∧
    (tryCandidate d st c).uiSession = st.uiSession ∧ (tryCandidate d st c).valid = st.valid := by
  unfold tryCandidate
  split
  · exact ⟨rfl, rfl, rfl, rfl⟩
  · split
    · simp [hno, checkDecrypt_fail_ok]
    · exact ⟨rfl, rfl, rfl, rfl⟩

theorem scan_done (d : Datagram) (i : Nat) (pl : Plain)
    (hdec : d.decrypt i = some pl) (hpl : pl.uiSession = i) (cs : List Nat) (st : Scan)
    (hids : ∀ j u, st.srv.qhUsers j = some u → u.uiSession = j)
    (hpre : ∃ w, st.srv.qhUsers i = some w ∧ w.csCrypt.bInit = true)
    (huniq : ∀ c ∈ cs, c ≠ i → d.decrypt c = none)
    (h : i ∈ cs ∨ ScanDone i pl st) :
    ScanDone i pl (cs.foldl (tryCandidate d) st) := by
  induction cs generalizing st with
  | nil =>
    rcases h with h | h
    · cases h
    · exact h
  | cons c cs ih =>
    rw [List.foldl_cons]
    obtain ⟨w, hw, hinit⟩ := hpre
    refine ih _ (ids_tryCandidate d st c hids) ?_
      (fun x hx => huniq x (List.mem_cons_of_mem _ hx)) ?_
    · obtain ⟨v, hv, hvb, _⟩ := tryCandidate_keeps d st c i w hw
      exact ⟨v, hv, hvb.trans hinit⟩
    · by_cases hci : c = i
      · subst hci
        exact Or.inr (tryCandidate_match_scan d st c w pl hw hinit (hids c w hw) hdec hpl)
      · rcases h with h | h
        · left
          rcases List.mem_cons.1 h with h | h
          · exact absurd h.symm hci
          · exact h
        · right
          obtain ⟨h1, h2, h3, h4⟩ := tryCandidate_silent d st c
            (huniq c (List.mem_cons_self _ _) hci)
          exact ⟨h1.trans h.1, h2.trans h.2.1, h3.trans h.2.2.1, h4.trans h.2.2.2⟩

theorem scan_keeps (d : Datagram) (i : Nat) (w : User) (cs : List Nat) (st : Scan)
    (hw : st.srv.qhUsers i = some w) :
    ∃ v, (cs.foldl (tryCandidate d) st).srv.qhUsers i = some v ∧
      v.csCrypt.bInit = w.csCrypt.bInit ∧ v.sin_addr = w.sin_addr := by
  induction cs generalizing st w with
  | nil => exact ⟨w, hw, rfl, rfl⟩
  | cons c cs ih =>
    rw [List.foldl_cons]
    obtain ⟨v, hv, hvb, hva⟩ := tryCandidate_keeps d st c i w hw
    obtain ⟨v2, hv2, hvb2, hva2⟩ := ih v _ hv
    exact ⟨v2, hv2, hvb2.trans hvb, hva2.trans hva⟩

/-- Promotion: an accepted Ping that itself moves its session from
`qhHostUsers` to `qhPeerUsers` goes to `sendMessage` with the received length
less the four bytes of the crypt header, and the echo has the received
length. -/
theorem run_ping_promoted (K : MessageIds) (s : Server) (d : Datagram) (i : Nat) (u : User)
    (pl : Plain) (hinv : TableInv s) (hperm : d.order.Perm (s.qhHostUsers d.sin_addr))
    (hlen : 6 ≤ d.len) (hkey : s.qhPeerUsers (peerKey d.sin_addr d.sin_port) = none)
    (hu : s.qhUsers i = some u) (hhost : i ∈ s.qhHostUsers d.sin_addr)
    (hinit : u.csCrypt.bInit = true) (hdec : d.decrypt i = some pl) (hpl : pl.uiSession = i)
    (hty : pl.msgType = K.Ping) (hvalid : pl.valid = true)
    (huniq : ∀ c ∈ d.order, c ≠ i → d.decrypt c = none) :
    (run K s d).act = Action.ping i (d.len - 4) ∧
    (d.sin_port ≠ 0 → pingEcho (run K s d) = some (Wire.udp d.sin_addr d.sin_port d.len)) := by
  have haddr : u.sin_addr = d.sin_addr := by
    obtain ⟨w, hw, hwa⟩ := hinv.host _ _ hhost
    rw [hu] at hw; cases hw; exact hwa
  have hdone := scan_done d i pl hdec hpl d.order ⟨s, none, 0, 0, true, []⟩ hinv.ids
    ⟨u, hu, hinit⟩ huniq (Or.inl (hperm.mem_iff.2 hhost))
  have hprom := scan_promotes d i pl hdec hpl d.order ⟨s, none, 0, 0, true, []⟩ hinv.ids
    ⟨u, hu, hinit, haddr⟩ (fun c hc hci q hq => by rw [huniq c hc hci] at hq; cases hq)
    (Or.inl (hperm.mem_iff.2 hhost))
  obtain ⟨v, hv, hvb, _⟩ := scan_keeps d i u d.order ⟨s, none, 0, 0, true, []⟩ hu
  obtain ⟨h1, h2, h3, h4⟩ := hdone
  have hact : (run K s d).act = Action.ping i (d.len - 4) := by
    unfold run
    rw [if_neg (by omega), if_neg (by omega), if_neg (by omega), hkey]
    simp only [h1, h2, h4, hty, hvalid]
    exact dispatch_ping K _ i _ _
  refine ⟨hact, ?_⟩
  intro hport
  obtain ⟨_, _, v2, hv2, hport2, haddr2⟩ := hprom
  rw [hv] at hv2
  cases hv2
  have hfinal : (run K s d).srv.qhUsers i = some v := by
    rw [run_unknown_srv K s d hlen hkey]; exact hv
  unfold pingEcho
  rw [hact]
  simp only [hfinal]
  unfold sendMessage
  rw [if_pos ⟨by rw [hport2]; exact hport, by rw [hvb]; exact hinit⟩, haddr2, hport2,
    show d.len - 4 + 4 = d.len by omega]

/-! ## Channel pointers and occupant lists stay in step -/

theorem mem_removePlayer {w : World} {c p k x : Nat} :
    x ∈ (removePlayer w c p).qlPlayers k ↔ x ∈ w.qlPlayers k ∧ (k = c → x ≠ p) := by
  simp only [removePlayer]
  by_cases hk : k = c
  · subst hk; simp
  · simp [hk]

theorem inStep_removePlayer (w : World) (c p : Nat) (h : InStep w) :
    InStep (removePlayer w c p) := by
  refine ⟨h.ids, ?_, ?_⟩
  · intro k x hx
    exact h.step k x (mem_removePlayer.1 hx).1
  · intro k
    simp only [removePlayer]
    split
    · exact (h.nodup _).filter _
    · exact h.nodup k

theorem mem_addPlayer {w : World} {c p k x : Nat} :
    x ∈ (addPlayer w c p).qlPlayers k ↔
      (x ∈ w.qlPlayers k ∧ (k = (w.player p).cChannel → x ≠ p)) ∨ (k = c ∧ x = p) := by
  simp only [addPlayer]
  by_cases hk : k = c
  · rw [if_pos hk, List.mem_append, List.mem_singleton, ← hk, mem_removePlayer]
    simp
  · rw [if_neg hk, mem_removePlayer]
    simp [hk]

theorem inStep_addPlayer (w : World) (c p : Nat) (h : InStep w) : InStep (addPlayer w c p) := by
  refine ⟨?_, ?_, ?_⟩
  · intro i
    simp only [addPlayer]
    split
    · rename_i hi; subst hi; exact h.ids i
    · exact h.ids i
  · intro k x hx
    rcases mem_addPlayer.1 hx with ⟨hx1, hx2⟩ | ⟨hk, hxp⟩
    · have hxk := h.step k x hx1
      have hne : x ≠ p := by
        intro hxp
        subst hxp
        exact hx2 hxk.symm rfl
      simp only [addPlayer, if_neg hne]
      exact hxk
    · subst hxp
      simp only [addPlayer, if_true]
      exact hk.symm
  · intro k
    simp only [addPlayer]
    have hrem := inStep_removePlayer w (w.player p).cChannel p h
    split
    · rename_i hk
      rw [List.nodup_append]
      refine ⟨hrem.nodup c, List.nodup_singleton _, ?_⟩
      intro x hx hx2
      rw [List.mem_singleton] at hx2
      subst hx2
      obtain ⟨hx1, hx3⟩ := mem_removePlayer.1 hx
      exact hx3 (h.step c x hx1).symm rfl
    · exact hrem.nodup k

theorem inStep_playerEnterChannel (w : World) (p c : Nat) (quiet : Bool) (h : InStep w) :
    InStep (playerEnterChannel w p c quiet) := by
  have ha := inStep_addPlayer w c p h
  unfold playerEnterChannel
  split
  · exact h
  split
  · exact ha
  split
  · exact ha
  split
  · refine ⟨?_, ?_, ha.nodup⟩
    · intro i
      dsimp only
      split
      · rename_i hi; subst hi; exact ha.ids i
      · exact ha.ids i
    · intro k x hx
      have := ha.step k x hx
      dsimp only
      split
      · rename_i hi; subst hi; exact this
      · exact this
  · exact ha

theorem reachableWorld_inStep (w : World) (h : ReachableWorld w) : InStep w := by
  induction h with
  | start w hq hi =>
    refine ⟨hi, ?_, ?_⟩
    · intro c p hp
      rw [hq c] at hp
      cases hp
    · intro c
      rw [hq c]
      exact List.nodup_nil
  | enter p c quiet _ ih => exact inStep_playerEnterChannel _ p c quiet ih
  | leave c p _ ih => exact inStep_removePlayer _ c p ih
  | update v _ hq hi hc ih =>
    refine ⟨fun i => (hi i).trans (ih.ids i), ?_, fun c => by rw [hq c]; exact ih.nodup c⟩
    intro c p hp
    rw [hq c] at hp
    rw [hc c p hp]
    exact ih.step c p hp


theorem playerEnterChannel_loud (w : World) (p c : Nat) :
    (∀ k, (playerEnterChannel w p c false).qlPlayers k = (addPlayer w c p).qlPlayers k) ∧
    (∀ i, ((playerEnterChannel w p c false).player i).uiSession = (w.player i).uiSession) ∧
    (∀ i, ((playerEnterChannel w p c false).player i).cChannel =
      if i = p then c else (w.player i).cChannel) := by
  have hu : ∀ i, ((addPlayer w c p).player i).uiSession = (w.player i).uiSession := by
    intro i
    simp only [addPlayer]
    split
    · rename_i hi; subst hi; rfl
    · rfl
  have hc : ∀ i, ((addPlayer w c p).player i).cChannel =
      if i = p then c else (w.player i).cChannel := by
    intro i
    simp only [addPlayer]
    split <;> rfl
  unfold playerEnterChannel
  rw [if_neg (by simp)]
  rw [if_neg (by simp)]
  split
  · exact ⟨fun _ => rfl, hu, hc⟩
  split
  · refine ⟨fun _ => rfl, ?_, ?_⟩
    · intro i
      dsimp only
      split
      · rename_i hi; subst hi; exact hu i
      · exact hu i
    · intro i
      dsimp only
      split
      · exact (hc p).trans (if_pos rfl)
      · rename_i hi; exact (hc i).trans (if_neg hi)
  · exact ⟨fun _ => rfl, hu, hc⟩

theorem addPlayer_newcomer (w : World) (c p : Nat) (hnew : ∀ k, p ∉ w.qlPlayers k) (k : Nat) :
    (addPlayer w c p).qlPlayers k = if k = c then w.qlPlayers c ++ [p] else w.qlPlayers k := by
  have hf : ∀ j, (w.qlPlayers j).filter (fun x => x ≠ p) = w.qlPlayers j := by
    intro j
    rw [List.filter_eq_self]
    intro y hy
    have : y ≠ p := fun h => hnew j (h ▸ hy)
    simpa using this
  simp only [addPlayer, removePlayer]
  split
  · split
    · rename_i h; rw [hf, h]
    · rfl
  · split
    · rename_i h; rw [hf, h]
    · rfl

/-- A world whose objects carry their own ids and whose occupant lists are
those of a list of seatings `(p, c)`, no session seated twice and each seated
session pointing at its channel, is reached by letting the sessions enter in
that order. -/
theorem reachable_of_seats (T : World) (ss : List (Nat × Nat))
    (hid : ∀ i, (T.player i).uiSession = i)
    (hnd : (ss.map Prod.fst).Nodup)
    (hch : ∀ x ∈ ss, (T.player x.1).cChannel = x.2)
    (hq : ∀ k, T.qlPlayers k = (ss.filter (fun x => x.2 = k)).map Prod.fst) :
    ReachableWorld T := by
  have key : ∀ ss : List (Nat × Nat), (ss.map Prod.fst).Nodup →
      (∀ x ∈ ss, (T.player x.1).cChannel = x.2) →
      ReachableWorld
        { T with qlPlayers := fun k => (ss.filter (fun x => x.2 = k)).map Prod.fst } := by
    intro ss
    induction ss using List.reverseRecOn with
    | nil =>
      intro _ _
      exact ReachableWorld.start _ (fun _ => rfl) hid
    | append_singleton ss x ih =>
      intro hnd hch
      rw [List.map_append, List.nodup_append] at hnd
      have hr := ih hnd.1 (fun y hy => hch y (List.mem_append_left _ hy))
      have hx : (T.player x.1).cChannel = x.2 :=
        hch x (List.mem_append_right _ (List.mem_singleton.2 rfl))
      have hnew : ∀ k, x.1 ∉ (ss.filter (fun y => y.2 = k)).map Prod.fst := by
        intro k hmem
        rw [List.mem_map] at hmem
        obtain ⟨y, hy, hyx⟩ := hmem
        exact hnd.2.2 (List.mem_map.2 ⟨y, (List.mem_filter.1 hy).1, hyx⟩)
          (List.mem_singleton.2 rfl)
      have hl := playerEnterChannel_loud
        { T with qlPlayers := fun k => (ss.filter (fun x => x.2 = k)).map Prod.fst } x.1 x.2
      refine ReachableWorld.update _ (ReachableWorld.enter x.1 x.2 false hr) ?_ ?_ ?_
      · intro k
        rw [hl.1 k, addPlayer_newcomer _ _ _ hnew k]
        dsimp only
        rw [List.filter_append, List.map_append]
        by_cases hk : k = x.2
        · subst hk
          simp
        · have hk2 : ¬ x.2 = k := fun h => hk h.symm
          simp [hk, hk2]
      · intro i
        exact (hl.2.1 i).symm
      · intro c i _
        rw [hl.2.2 i]
        split
        · rename_i hi; subst hi; exact hx
        · rfl
  exact ReachableWorld.update T (key ss hnd hch) hq (fun _ => rfl) (fun _ _ _ => rfl)

theorem reachable_gateWorld (perm : Nat → Nat → Perm → Bool) (selfDeaf : Bool) :
    ReachableWorld (gateWorld perm selfDeaf) := by
  refine reachable_of_seats _ [(5, 0), (6, 1)] ?_ (by decide) ?_ ?_
  · intro i
    simp only [gateWorld]
    split
    · rename_i h; rw [h]; rfl
    · rfl
  · intro x hx
    simp only [List.mem_cons, List.mem_singleton, List.not_mem_nil, or_false] at hx
    rcases hx with rfl | rfl <;> rfl
  · intro k
    simp only [gateWorld]
    by_cases h0 : k = 0
    · subst h0; rfl
    · by_cases h1 : k = 1
      · subst h1; rfl
      · have h0' : ¬ 0 = k := fun h => h0 h.symm
        have h1' : ¬ 1 = k := fun h => h1 h.symm
        simp [h0, h1, h0', h1']

theorem reachable_crowdWorld : ReachableWorld crowdWorld := by
  refine reachable_of_seats _ [(6, 0), (5, 0), (7, 0), (8, 1), (9, 1), (10, 2)] ?_ (by decide) ?_ ?_
  · intro i
    simp only [crowdWorld]
    split
    · rename_i h; rw [h]; rfl
    · rfl
  · intro x hx
    simp only [List.mem_cons, List.mem_singleton, List.not_mem_nil, or_false] at hx
    rcases hx with rfl | rfl | rfl | rfl | rfl | rfl <;> rfl
  · intro k
    simp only [crowdWorld]
    by_cases h0 : k = 0
    · subst h0; rfl
    · by_cases h1 : k = 1
      · subst h1; rfl
      · by_cases h2 : k = 2
        · subst h2; rfl
        · have h0' : ¬ 0 = k := fun h => h0 h.symm
          have h1' : ¬ 1 = k := fun h => h1 h.symm
          have h2' : ¬ 2 = k := fun h => h2 h.symm
          simp [h0, h1, h2, h0', h1', h2']

theorem speaker_not_in_fanout (F : SpeexFlags) (w : World) (i flags : Nat) (h : InStep w) :
    i ∉ fanout F w (w.player i) flags := by
  rw [mem_fanout]
  rintro (hown | ⟨l, hl, _, hpl, _⟩)
  · exact hown.2.2 (h.ids i).symm
  · exact (mem_linkedChans.1 hl).2.2 (h.step l i hpl).symm

theorem linked_occupant_in_fanout (F : SpeexFlags) (w : World) (u : User) (flags L p : Nat)
    (h : InStep w) (hL : L ∈ linkedChans w u.cChannel) (hp : p ∈ w.qlPlayers L) :
    p ∈ fanout F w u flags ↔
      w.hasPermission u.uiSession L (wantedPerm F flags) = true ∧ hears w p = true := by
  rw [mem_fanout]
  constructor
  · rintro (hown | ⟨l, _, hperm, hpl, hh⟩)
    · exact absurd ((h.step L p hp).symm.trans (h.step _ p hown.1)) (mem_linkedChans.1 hL).2.2
    · have hl : l = L := (h.step l p hpl).symm.trans (h.step L p hp)
      rw [← hl]
      exact ⟨hperm, hh⟩
  · rintro ⟨hperm, hh⟩
    exact Or.inr ⟨L, hL, hperm, hp, hh⟩

/-! ## Session table: the statements -/

theorem reachable_orphan3 : Reachable demoIds orphan3 :=
  Reachable.control (demoFresh 1) (demoAuth 1)
    (reachable_accepts demoIds noBan [demoSock, demoSock] _ (Reachable.fresh 100 []))
    (by decide) ⟨rfl, rfl, rfl⟩

theorem reachable_orphan5 : Reachable demoIds orphan5 :=
  Reachable.close (demoFresh 2)
    (Reachable.datagram orphanDatagram reachable_orphan3
      ((show orphan3.qhHostUsers demoAddr = [1, 2] from by decide) ▸ List.Perm.refl _))
    (by decide)

theorem reachable_rebind8 : Reachable demoIds rebind8 :=
  Reachable.control (demoFresh 7) (demoAuth 7)
    (reachable_accepts demoIds noBan (List.replicate 7 demoSock) _ (Reachable.fresh 100 []))
    (by decide) ⟨rfl, rfl, rfl⟩

theorem rebindFirst_order : rebindFirst.order.Perm (rebind8.qhHostUsers rebindFirst.sin_addr) :=
  (show rebind8.qhHostUsers demoAddr = [1, 2, 3, 4, 5, 6, 7] from by decide) ▸ List.Perm.refl _

theorem rebindSecond_order : rebindSecond.order.Perm (rebind9.qhHostUsers rebindSecond.sin_addr) :=
  (show rebind9.qhHostUsers demoAddr = [1, 2, 3, 4, 5, 6] from by decide) ▸ List.Perm.refl _

theorem reachable_rebind9 : Reachable demoIds rebind9 :=
  Reachable.datagram rebindFirst reachable_rebind8 rebindFirst_order

/-- C1: in every table reachable from the freshly constructed server by
accepted connections, datagrams, stream closes of sessions in `qhUsers` and
control-plane updates, the free pool `qqIds` holds no id twice, and a session
id in `[1, 5000)` is in the pool iff it is not a key of `qhUsers`. -/
theorem pool_iff_not_in_byId (K : MessageIds) (s : Server) (h : Reachable K s) :
    s.qqIds.Nodup ∧ ∀ i, 1 ≤ i → i < 5000 → (i ∈ s.qqIds ↔ s.qhUsers i = none) :=
  ⟨(reachable_poolInv K s h).nodup, (reachable_poolInv K s h).free⟩

/-- Witness of C1 on scenario A: two connections, a datagram, one close. -/
theorem pool_iff_not_in_byId_witness :
    Reachable demoIds orphan5 ∧
    (orphan5.qqIds.Nodup ∧
      ∀ i, 1 ≤ i → i < 5000 → (i ∈ orphan5.qqIds ↔ orphan5.qhUsers i = none)) :=
  ⟨reachable_orphan5, pool_iff_not_in_byId demoIds orphan5 reachable_orphan5⟩

/-- C2 at its failing input (scenario A): sessions 1 and 2 connect from
10.0.0.1, session 1 sends a valid datagram from source port 0 and is moved to
`qhPeerUsers`, then the stream of the still unbound session 2 closes.
`connectionClosed` erases the key of `(10.0.0.1, 0)`, which is the entry of
session 1: session 1 is still in `qhUsers` but in neither secondary index. -/
theorem orphan_in_neither_index :
    Reachable demoIds orphan5 ∧
    orphan5.qhUsers 1 = some { demoAuth 1 with csCrypt := ⟨true, 1000, 0⟩ } ∧
    orphan5.qhPeerUsers (peerKey demoAddr 0) = none ∧
    1 ∉ orphan5.qhHostUsers demoAddr ∧
    ¬ ExactlyOneIndex orphan5 := by
  have h1 : orphan5.qhUsers 1 = some { demoAuth 1 with csCrypt := ⟨true, 1000, 0⟩ } := by decide
  have h2 : orphan5.qhPeerUsers (peerKey demoAddr 0) = none := by decide
  have h3 : 1 ∉ orphan5.qhHostUsers demoAddr := by
    rw [show orphan5.qhHostUsers demoAddr = [] from by decide]
    exact List.not_mem_nil 1
  refine ⟨reachable_orphan5, h1, h2, h3, ?_⟩
  intro h
  rcases h 1 { demoAuth 1 with csCrypt := ⟨true, 1000, 0⟩ } h1 with hp | hh
  · have hp2 : orphan5.qhPeerUsers (peerKey demoAddr 0) = some 1 := hp.1
    rw [h2] at hp2
    cases hp2
  · exact h3 hh.2

/-- C3 as stated fails on a re-bind (scenario B): session 7 from 10.0.0.1 is
bound to port 40000; a second datagram from port 40001 that decrypts under its
cipher state and carries its id does not bind it to the new port; the round
ends without echo and without voice dispatch. -/
theorem rebind_is_dropped :
    Reachable demoIds rebind9 ∧ rebind9.qhUsers 7 = some rebindUser ∧
    rebindSecond.sin_addr = rebindUser.sin_addr ∧ 6 ≤ rebindSecond.len ∧
    rebindUser.csCrypt.bInit = true ∧ rebindSecond.decrypt 7 = some ⟨2, 7, true⟩ ∧
    rebindSecond.order.Perm (rebind9.qhHostUsers rebindSecond.sin_addr) ∧
    ¬ BoundTo (run demoIds rebind9 rebindSecond).srv 7 demoAddr 40001 ∧
    (run demoIds rebind9 rebindSecond).act = Action.drop :=
  ⟨reachable_rebind9, by decide, rfl, by decide, rfl, by decide, rebindSecond_order,
    fun h => absurd h.1 (by decide), by decide⟩

/-- C3 (amended): let session `i` be in `qhUsers` of a reachable table with
stored address `A`, and let `run` process a datagram of at least six bytes
from `(A, p)` that decrypts under the valid cipher state of `i` and carries
id `i`, the candidate set being enumerated in any order.  First promotion: if
`i` is still in `qhHostUsers[A]`, the key of `(A, p)` is not in `qhPeerUsers`
and the datagram decrypts to its own id under no other candidate of
`qhHostUsers[A]`, then afterwards `qhPeerUsers` maps the key of `(A, p)` to
`i`, the stored port of `i` is `p`, `qhHostUsers[A]` does not hold `i` and no
other key maps to `i`.  No re-bind: if `i` is already bound to a different
port of `A`, the object of `i` is unchanged, `i` stays bound to its old port
in the same sense, and the key of `(A, p)` does not map to `i`; and when the
datagram decrypts to its own id under no other session, neither a candidate
of `qhHostUsers[A]` nor the session under the key of `(A, p)`, the round ends
without echo and without voice dispatch: the datagram is dropped. -/
theorem peer_binding_first_port (K : MessageIds) (s : Server) (i : Nat) (u : User) (d : Datagram)
    (pl : Plain) (hr : Reachable K s) (hu : s.qhUsers i = some u) (ha : d.sin_addr = u.sin_addr)
    (hperm : d.order.Perm (s.qhHostUsers d.sin_addr))
    (hlen : 6 ≤ d.len) (hinit : u.csCrypt.bInit = true) (hdec : d.decrypt i = some pl)
    (hpl : pl.uiSession = i) :
    (i ∈ s.qhHostUsers u.sin_addr →
      s.qhPeerUsers (peerKey d.sin_addr d.sin_port) = none →
      (∀ c ∈ s.qhHostUsers u.sin_addr, c ≠ i → ∀ q, d.decrypt c = some q → q.uiSession ≠ c) →
      BoundTo (run K s d).srv i u.sin_addr d.sin_port) ∧
    (s.qhPeerUsers (peerKey u.sin_addr u.sin_port) = some i → d.sin_port ≠ u.sin_port →
      (run K s d).srv.qhUsers i = some u ∧
      BoundTo (run K s d).srv i u.sin_addr u.sin_port ∧
      (run K s d).srv.qhPeerUsers (peerKey d.sin_addr d.sin_port) ≠ some i ∧
      ((∀ c, c ≠ i →
          (c ∈ s.qhHostUsers u.sin_addr ∨
            s.qhPeerUsers (peerKey d.sin_addr d.sin_port) = some c) →
          ∀ q, d.decrypt c = some q → q.uiSession ≠ c) →
        (run K s d).act = Action.drop)) := by
  have hinv := reachable_tableInv K s hr
  have hinv2 := tableInv_run K s d hinv hperm
  constructor
  · intro hhost hkey huniq
    have hP : Promoted d i (run K s d).srv := by
      rw [run_unknown_srv K s d hlen hkey]
      refine scan_promotes d i pl hdec hpl _ _ hinv.ids ⟨u, hu, hinit, ha.symm⟩ ?_ (Or.inl ?_)
      · intro c hc
        exact huniq c (ha ▸ hperm.mem_iff.1 hc)
      · exact hperm.mem_iff.2 (ha ▸ hhost)
    obtain ⟨hp, hh, v, hv, hvp, hva⟩ := hP
    rw [← ha]
    refine ⟨hp, ⟨v, hv, hvp⟩, hh, ?_⟩
    intro k hk
    obtain ⟨v2, hv2, hk2, _⟩ := hinv2.peer k i hk
    rw [hv] at hv2; cases hv2
    rw [hk2, hvp, hva]
  · intro hbound hport
    obtain ⟨w, hw, _, hnh⟩ := hinv.peer _ i hbound
    rw [hu] at hw; cases hw
    have hkne : peerKey u.sin_addr u.sin_port ≠ peerKey d.sin_addr d.sin_port := by
      rw [ha]; intro hc; exact hport (peerKey_port_inj hc).symm
    have hnot : s.qhPeerUsers (peerKey d.sin_addr d.sin_port) ≠ some i := by
      intro hc
      obtain ⟨w, hw, hk, _⟩ := hinv.peer _ i hc
      rw [hu] at hw; cases hw
      exact hkne hk.symm
    have husers : (run K s d).srv.qhUsers i = some u := by
      rw [run_users_ne K s d i hnot (fun hc => hnh (ha ▸ hperm.mem_iff.1 hc))]; exact hu
    have hpeer : (run K s d).srv.qhPeerUsers (peerKey u.sin_addr u.sin_port) = some i := by
      rw [run_peer_ne K s d _ hkne]; exact hbound
    refine ⟨husers, ⟨hpeer, ⟨u, husers, rfl⟩, ?_, ?_⟩, ?_, ?_⟩
    · obtain ⟨w, hw, _, hn⟩ := hinv2.peer _ i hpeer
      rw [husers] at hw; cases hw; exact hn
    · intro k hk
      obtain ⟨w, hw, hk2, _⟩ := hinv2.peer k i hk
      rw [husers] at hw; cases hw; exact hk2
    · intro hc
      obtain ⟨w, hw, hk2, _⟩ := hinv2.peer _ i hc
      rw [husers] at hw; cases hw
      exact hkne hk2.symm
    · intro hother
      refine run_nomatch_drop K s d hinv.ids hlen ?_ ?_
      · intro c hc
        exact hother c (fun hci => hnot (hci ▸ hc)) (Or.inr hc)
      · intro c hc
        have hmem : c ∈ s.qhHostUsers u.sin_addr := ha ▸ hperm.mem_iff.1 hc
        exact hother c (fun hci => hnh (hci ▸ hmem)) (Or.inl hmem)

/-- Witness of C3 (amended) on scenario B: the first datagram of session 7,
from port 40000, binds it; the second, from port 40001, leaves it bound to
port 40000 and is dropped. -/
theorem peer_binding_first_port_witness :
    BoundTo (run demoIds rebind8 rebindFirst).srv 7 demoAddr 40000 ∧
    ((run demoIds rebind9 rebindSecond).srv.qhUsers 7 = some rebindUser ∧
      BoundTo (run demoIds rebind9 rebindSecond).srv 7 demoAddr 40000 ∧
      (run demoIds rebind9 rebindSecond).srv.qhPeerUsers (peerKey demoAddr 40001) ≠ some 7) ∧
    (run demoIds rebind9 rebindSecond).act = Action.drop :=
  ⟨(peer_binding_first_port demoIds rebind8 7 (demoAuth 7) rebindFirst ⟨2, 7, true⟩
      reachable_rebind8 (by decide) rfl rebindFirst_order (by decide) rfl (by decide) rfl).1
      (by
        rw [show rebind8.qhHostUsers (demoAuth 7).sin_addr = [1, 2, 3, 4, 5, 6, 7] from by decide]
        simp)
      (by decide)
      (fun c _ hc q hq => by simp [rebindFirst, onlyFor, hc] at hq),
    ⟨((peer_binding_first_port demoIds rebind9 7 rebindUser rebindSecond ⟨2, 7, true⟩
      reachable_rebind9 (by decide) rfl rebindSecond_order (by decide) rfl (by decide) rfl).2
      (by decide) (by decide)).1,
    ((peer_binding_first_port demoIds rebind9 7 rebindUser rebindSecond ⟨2, 7, true⟩
      reachable_rebind9 (by decide) rfl rebindSecond_order (by decide) rfl (by decide) rfl).2
      (by decide) (by decide)).2.1,
    ((peer_binding_first_port demoIds rebind9 7 rebindUser rebindSecond ⟨2, 7, true⟩
      reachable_rebind9 (by decide) rfl rebindSecond_order (by decide) rfl (by decide) rfl).2
      (by decide) (by decide)).2.2.1⟩,
    ((peer_binding_first_port demoIds rebind9 7 rebindUser rebindSecond ⟨2, 7, true⟩
      reachable_rebind9 (by decide) rfl rebindSecond_order (by decide) rfl (by decide) rfl).2
      (by decide) (by decide)).2.2.2
      (fun c hc _ q hq => by simp [rebindSecond, onlyFor, hc] at hq)⟩

/-- C4 as stated fails: with `users = 2` the third of three sequential
connections is allocated session id 3 and inserted into `qhUsers`, and the
pool is not empty afterwards. -/
theorem users_two_third_connect_allocated :
    (newClientOne noBan (accepts noBan (Server.fresh 2 []) [demoSock, demoSock]) demoSock).2 =
      Verdict.accepted 3 ∧
    ((newClientOne noBan (accepts noBan (Server.fresh 2 []) [demoSock, demoSock])
      demoSock).1.qhUsers 3).isSome = true ∧
    (newClientOne noBan (accepts noBan (Server.fresh 2 []) [demoSock, demoSock])
      demoSock).1.qqIds ≠ [] := by
  decide

/-- C4 (amended): the pool of 4999 ids, not the configured `users` value,
bounds the allocations of `newClient`.  Whatever `users` is, after `n ≤ 4999`
sequential connections to the fresh server, none banned and none closed, the
pool holds `n + 1 .. 4999` and `qhUsers` has exactly the keys `1 .. n`; a
further connection is allocated id `n + 1` when `n < 4999`, and when
`n = 4999` it is turned away with the table untouched and the pool empty. -/
theorem pool_bounds_sessions (users : Int) (bans : List (Nat × Int)) (banCheck : Nat → Bool)
    (socks : List Sock) (hlen : socks.length ≤ 4999)
    (hban : ∀ sock ∈ socks, banCheck sock.peerAddress = false ∧ banLoop sock.peerAddress bans = false) :
    (accepts banCheck (Server.fresh users bans) socks).qqIds =
      List.range' (socks.length + 1) (4999 - socks.length) ∧
    (∀ i, ((accepts banCheck (Server.fresh users bans) socks).qhUsers i).isSome = true ↔
      1 ≤ i ∧ i ≤ socks.length) ∧
    ∀ sock, banCheck sock.peerAddress = false → banLoop sock.peerAddress bans = false →
      (socks.length < 4999 →
        (newClientOne banCheck (accepts banCheck (Server.fresh users bans) socks) sock).2 =
          Verdict.accepted (socks.length + 1)) ∧
      (socks.length = 4999 →
        newClientOne banCheck (accepts banCheck (Server.fresh users bans) socks) sock =
          (accepts banCheck (Server.fresh users bans) socks, Verdict.full) ∧
        (accepts banCheck (Server.fresh users bans) socks).qqIds = []) := by
  have h := accepts_afterAllocs banCheck bans socks 0 _ (afterAllocs_fresh users bans)
    (by omega) hban
  rw [Nat.zero_add] at h
  refine ⟨h.2.1, h.2.2, ?_⟩
  intro sock hg hl
  constructor
  · intro hm
    exact (newClientOne_alloc banCheck bans _ _ sock h hm hg hl).1
  · intro hm
    rw [hm] at h
    exact newClientOne_full banCheck bans _ sock h hg hl

/-- Witness of C4 (amended): `users = 2` and three connections from
10.0.0.1. -/
theorem pool_bounds_sessions_witness :
    (accepts noBan (Server.fresh 2 []) [demoSock, demoSock, demoSock]).qqIds =
      List.range' 4 4996 ∧
    (∀ i, ((accepts noBan (Server.fresh 2 []) [demoSock, demoSock, demoSock]).qhUsers i).isSome
      = true ↔ 1 ≤ i ∧ i ≤ 3) :=
  ⟨(pool_bounds_sessions 2 [] noBan [demoSock, demoSock, demoSock] (by decide)
      (fun _ _ => ⟨rfl, rfl⟩)).1,
    (pool_bounds_sessions 2 [] noBan [demoSock, demoSock, demoSock] (by decide)
      (fun _ _ => ⟨rfl, rfl⟩)).2.1⟩

/-! ## Ban filter: the statement -/

/-- C5: for 32-bit `addr` and `ban` and a prefix length `1 ≤ n ≤ 32`, the test
`(addr & ~mask) == (ban & ~mask)` with `mask = (1 << (32 - n)) - 1` in 32-bit
arithmetic holds iff `addr` and `ban` agree on their `n` most significant
bits, that is on the bits `32 - n .. 31`, equivalently iff they are equal
after a right shift by `32 - n`.  The ban loop fires iff some entry of the ban
list passes the test, and a connection that the global predicate lets through
is turned away by the local filter, the table untouched, iff some entry of
`qlBans` passes it. -/
theorem local_ban_filter (addr ban : Nat) (n : Int) (ha : addr < 2 ^ 32) (hb : ban < 2 ^ 32)
    (h1 : 1 ≤ n) (h32 : n ≤ 32) :
    (banTest addr (ban, n) = true ↔
      ∀ j, (32 - n).toNat ≤ j → j < 32 → addr.testBit j = ban.testBit j) ∧
    (banTest addr (ban, n) = true ↔ addr >>> (32 - n).toNat = ban >>> (32 - n).toNat) ∧
    (∀ bans : List (Nat × Int), banLoop addr bans = true ↔ ∃ b ∈ bans, banTest addr b = true) ∧
    (∀ (banCheck : Nat → Bool) (s : Server) (sock : Sock), sock.peerAddress = addr →
      banCheck addr = false →
      (((newClientOne banCheck s sock).2 = Verdict.localBan ↔
          ∃ b ∈ s.qlBans, banTest addr b = true) ∧
        ((newClientOne banCheck s sock).2 = Verdict.localBan →
          (newClientOne banCheck s sock).1 = s))) := by
  have hk : (32 - n).toNat ≤ 31 := by omega
  have key : banTest addr (ban, n) = true ↔
      ∀ j, (32 - n).toNat ≤ j → j < 32 → addr.testBit j = ban.testBit j := by
    unfold banTest
    simp only [beq_iff_eq, banMask_eq n h1 h32]
    exact and_notMask_eq_iff addr ban _ hk
  refine ⟨key, key.trans (shiftRight_eq_iff addr ban _ ha hb).symm, banLoop_iff addr, ?_⟩
  intro banCheck s sock hs hg
  subst hs
  constructor
  · rw [newClientOne_localBan, banLoop_iff]
    simp [hg]
  · intro hv
    have := (newClientOne_localBan banCheck s sock).1 hv
    unfold newClientOne
    rw [if_neg (by simp [hg]), if_pos this.2]

/-- Witness of C5: with the ban list `[(10.1.2.0, 24)]` a connection from
10.1.2.99 is refused and one from 10.1.3.1 is allocated a session. -/
theorem local_ban_filter_witness :
    (banTest 0x0A010263 (0x0A010200, 24) = true ∧ banTest 0x0A010301 (0x0A010200, 24) = false) ∧
    ((banTest 0x0A010263 (0x0A010200, 24) = true ↔
      (0x0A010263 : Nat) >>> 8 = (0x0A010200 : Nat) >>> 8)) ∧
    (newClientOne noBan (Server.fresh 100 [(0x0A010200, 24)]) ⟨0x0A010263, 50000, demoBlank⟩).2 =
      Verdict.localBan ∧
    (newClientOne noBan (Server.fresh 100 [(0x0A010200, 24)]) ⟨0x0A010301, 50000, demoBlank⟩).2 =
      Verdict.accepted 1 :=
  ⟨by decide,
   (local_ban_filter 0x0A010263 0x0A010200 24 (by decide) (by decide) (by decide) (by decide)).2.1,
   by decide, by decide⟩

/-! ## Bandwidth ring: the statement -/

/-- C6: after any sequence of `n` calls `addFrame(k_1) .. addFrame(k_n)` on a
freshly constructed record with `N > 0` slots, the running sum `iSum` equals
the sum of the values stored by the most recent `min(n, N)` calls (each call
stores `static_cast<unsigned char>(k_i)`), it equals the sum of all `N` slots
`a_iBW`, and the cursor `iRecNum` equals `n mod N`, so it indexes inside the
ring. -/
theorem ring_sum_invariant (N t0 : Nat) (hN : 0 < N) (fs : List (Int × Nat)) :
    (BandwidthRecord.after N t0 fs).iSum =
      (((lastN (min fs.length N) (fs.map (fun f => toUChar f.1))).sum : Nat) : Int) ∧
    (BandwidthRecord.after N t0 fs).iSum = (((BandwidthRecord.after N t0 fs).a_iBW.sum : Nat) : Int) ∧
    (BandwidthRecord.after N t0 fs).a_iBW.length = N ∧
    (BandwidthRecord.after N t0 fs).iRecNum = fs.length % N ∧
    (BandwidthRecord.after N t0 fs).iRecNum < N := by
  have h := ringInv_after N t0 hN fs
  refine ⟨?_, h.slots, h.len, by simpa using h.cursor, ?_⟩
  · rw [h.recent, padded_drop_sum]; simp
  · rw [h.cursor]; exact Nat.mod_lt _ hN

/-- Witness of C6: a ring of three slots after frames of 200, 300, 50 and 7
bytes holds 44, 50 and 7 in its last three writes, sums to 101, and its cursor
is at slot 1. -/
theorem ring_sum_invariant_witness :
    (BandwidthRecord.after 3 0 [(200, 10), (300, 20), (50, 30), (7, 40)]).iSum = 101 ∧
    (BandwidthRecord.after 3 0 [(200, 10), (300, 20), (50, 30), (7, 40)]).iSum =
      (((BandwidthRecord.after 3 0 [(200, 10), (300, 20), (50, 30), (7, 40)]).a_iBW.sum : Nat) :
        Int) ∧
    (BandwidthRecord.after 3 0 [(200, 10), (300, 20), (50, 30), (7, 40)]).a_iBW.length = 3 ∧
    (BandwidthRecord.after 3 0 [(200, 10), (300, 20), (50, 30), (7, 40)]).iRecNum = 1 ∧
    (BandwidthRecord.after 3 0 [(200, 10), (300, 20), (50, 30), (7, 40)]).iRecNum < 3 :=
  ring_sum_invariant 3 0 (by decide) [(200, 10), (300, 20), (50, 30), (7, 40)]

/-! ## Voice fan-out: the statements -/

theorem crowdWorld_lists : (∀ c, (crowdWorld.qlPlayers c).Nodup) ∧
    (∀ c1 c2 p, p ∈ crowdWorld.qlPlayers c1 → p ∈ crowdWorld.qlPlayers c2 → c1 = c2) ∧
    (∀ c, (crowdWorld.allLinks c).Nodup) := by
  refine ⟨?_, ?_, ?_⟩
  · intro c
    simp only [crowdWorld]
    split
    · simp
    · split
      · simp
      · split <;> simp
  · intro c1 c2 p h1 h2
    simp only [crowdWorld] at h1 h2
    split at h1 <;> split at h2 <;> (try split at h1) <;> (try split at h2) <;>
      (try split at h1) <;> (try split at h2) <;> simp at h1 h2 <;> omega
  · intro c
    simp only [crowdWorld]
    split <;> simp

/-- C7: assume every session occurs in the occupant list `qlPlayers` of at
most one channel and at most once in it, and `allLinks()` returns each channel
once.  Then one `processMsg` call issues at most one `sendMessage` per
recipient, whatever the speaker, the flags and the frame, also when several
linked channels are permitted; and in every reachable world, when the Loopback
bit is clear, it issues none to the speaker. -/
theorem at_most_once_delivery (F : SpeexFlags) (N : Nat) (w : World) (cCon : Option User)
    (flags capacity now later : Nat)
    (H1 : ∀ c, (w.qlPlayers c).Nodup)
    (H2 : ∀ c1 c2 p, p ∈ w.qlPlayers c1 → p ∈ w.qlPlayers c2 → c1 = c2)
    (H3 : ∀ c, (w.allLinks c).Nodup) :
    (∀ p, (processMsg F N w cCon flags capacity now later).sends.count p ≤ 1) ∧
    (ReachableWorld w → ∀ i, cCon = some (w.player i) → flags &&& F.LoopBack = 0 →
      i ∉ (processMsg F N w cCon flags capacity now later).sends) := by
  constructor
  · rw [← List.nodup_iff_count_le_one]
    rcases processMsg_sends_cases F N w cCon flags capacity now later with
      h | ⟨u, _, _, h⟩ | ⟨u, _, _, h⟩
    · rw [h]; exact List.nodup_nil
    · rw [h]; exact List.nodup_singleton _
    · rw [h]; exact fanout_nodup F w u flags H1 H2 H3
  · intro hw i hu hloop
    rcases processMsg_sends_cases F N w cCon flags capacity now later with
      h | ⟨v, _, hv, _⟩ | ⟨v, hv, _, h⟩
    · rw [h]; exact List.not_mem_nil _
    · exact absurd hloop hv
    · rw [hu] at hv
      cases hv
      rw [h]
      exact speaker_not_in_fanout F w i flags (reachableWorld_inStep w hw)

/-- Witness of C7 on scenario D, a reachable world: two linked channels are
both permitted; nobody is sent the frame twice and the speaker 5 is not sent
it. -/
theorem at_most_once_delivery_witness :
    (∀ p, (processMsg demoFlags 3 crowdWorld (some demoSpeaker) 0 100 1000 2000).sends.count p
      ≤ 1) ∧
    5 ∉ (processMsg demoFlags 3 crowdWorld (some demoSpeaker) 0 100 1000 2000).sends ∧
    (processMsg demoFlags 3 crowdWorld (some demoSpeaker) 0 100 1000 2000).sends =
      [6, 7, 8, 9, 10] :=
  ⟨(at_most_once_delivery demoFlags 3 crowdWorld (some demoSpeaker) 0 100 1000 2000
      crowdWorld_lists.1 crowdWorld_lists.2.1 crowdWorld_lists.2.2).1,
    (at_most_once_delivery demoFlags 3 crowdWorld (some demoSpeaker) 0 100 1000 2000
      crowdWorld_lists.1 crowdWorld_lists.2.1 crowdWorld_lists.2.2).2 reachable_crowdWorld 5 rfl
      (by decide),
    by decide⟩

/-- C8 as stated fails on scenario C with a self-deafened listener, a
reachable world: channel 1 is linked to the speaker's channel 0, the speaker
has `Speak` in channel 1, and the occupant 6 of channel 1 is not deaf (`bDeaf`
is clear), yet 6 is not sent the frame, because `bSelfDeaf` is set. -/
theorem self_deaf_listener_is_skipped :
    ReachableWorld (gateWorld speakInAB true) ∧
    (1 ∈ linkedChans (gateWorld speakInAB true) demoSpeaker.cChannel ∧
      6 ∈ (gateWorld speakInAB true).qlPlayers 1 ∧
      (gateWorld speakInAB true).hasPermission 5 1 (wantedPerm demoFlags 0) = true ∧
      ((gateWorld speakInAB true).player 6).bDeaf = false) ∧
    6 ∉ (processMsg demoFlags 3 (gateWorld speakInAB true) (some demoSpeaker) 0 100 1000
      2000).sends := by
  refine ⟨reachable_gateWorld speakInAB true, ⟨?_, ?_, by decide, by decide⟩, ?_⟩
  · rw [show linkedChans (gateWorld speakInAB true) demoSpeaker.cChannel = [1] from by decide]
    exact List.mem_singleton.2 rfl
  · rw [show (gateWorld speakInAB true).qlPlayers 1 = [6] from by decide]
    exact List.mem_singleton.2 rfl
  · rw [show (processMsg demoFlags 3 (gateWorld speakInAB true) (some demoSpeaker) 0 100 1000
      2000).sends = [] from by decide]
    exact List.not_mem_nil 6

/-- C8 (amended): in every reachable world, let `u` be an authenticated,
unmuted, unsuppressed speaker whose frame passes the bandwidth check and has
the Loopback bit clear, `L` a channel of the set `chans` of `processMsg` (the
link closure `allLinks()` of the speaker's channel without that channel, when
`qhLinks` is not empty), and `p` an occupant of `L`.  Then `p` is sent the
frame if and only if `hasPermission(u, L, perm)` holds, with `perm` being
`AltSpeak` when the AltSpeak bit of `flags` is set and `Speak` otherwise, and
`p` is neither deaf nor self-deaf. -/
theorem linked_acl_gate (F : SpeexFlags) (N : Nat) (w : World) (u : User)
    (flags capacity now later : Nat) (rate : Int) (L p : Nat)
    (hw : ReachableWorld w)
    (hauth : u.sState = PlayerState.Authenticated) (hmute : u.bMute = false)
    (hsup : u.bSuppressed = false)
    (hrate : (u.bwr.addFrame N (20 + 8 + 4 + (capacity : Int)) now).bytesPerSec later = some rate)
    (hmax : rate ≤ w.iMaxBandwidth) (hloop : flags &&& F.LoopBack = 0)
    (hL : L ∈ linkedChans w u.cChannel) (hp : p ∈ w.qlPlayers L) :
    p ∈ (processMsg F N w (some u) flags capacity now later).sends ↔
      (w.hasPermission u.uiSession L
          (if flags &&& F.AltSpeak ≠ 0 then Perm.AltSpeak else Perm.Speak) = true ∧
        (w.player p).bDeaf = false ∧ (w.player p).bSelfDeaf = false) := by
  rw [processMsg_fanout F N w u flags capacity now later rate hauth hmute hsup hrate hmax hloop,
    linked_occupant_in_fanout F w u flags L p (reachableWorld_inStep w hw) hL hp, hears_iff]
  rfl

/-- Witness of C8 (amended) on scenario C: with `Speak` in channel A only, the
listener in the linked channel B is not sent the frame; with `Speak` in B it
is; with the AltSpeak bit set and only `AltSpeak` in B it is; with `Speak` in
B and the listener self-deafened it is not. -/
theorem linked_acl_gate_witness :
    6 ∉ (processMsg demoFlags 3 (gateWorld speakInA false) (some demoSpeaker) 0 100 1000
        2000).sends ∧
    6 ∈ (processMsg demoFlags 3 (gateWorld speakInAB false) (some demoSpeaker) 0 100 1000
        2000).sends ∧
    6 ∈ (processMsg demoFlags 3 (gateWorld altSpeakInB false) (some demoSpeaker) 1 100 1000
        2000).sends ∧
    6 ∉ (processMsg demoFlags 3 (gateWorld speakInAB true) (some demoSpeaker) 0 100 1000
        2000).sends := by
  have hL : ∀ perm sd, 1 ∈ linkedChans (gateWorld perm sd) demoSpeaker.cChannel := by
    intro perm sd
    rw [show linkedChans (gateWorld perm sd) demoSpeaker.cChannel = [1] from rfl]
    exact List.mem_singleton.2 rfl
  have hp : ∀ perm sd, 6 ∈ (gateWorld perm sd).qlPlayers 1 := by
    intro perm sd
    rw [show (gateWorld perm sd).qlPlayers 1 = [6] from rfl]
    exact List.mem_singleton.2 rfl
  refine ⟨?_, ?_, ?_, ?_⟩
  · intro h
    exact absurd ((linked_acl_gate demoFlags 3 (gateWorld speakInA false) demoSpeaker 0 100 1000
      2000 66000 1 6 (reachable_gateWorld _ _) rfl rfl rfl (by decide) (by decide) (by decide)
      (hL _ _) (hp _ _)).1 h).1 (by decide)
  · exact (linked_acl_gate demoFlags 3 (gateWorld speakInAB false) demoSpeaker 0 100 1000 2000
      66000 1 6 (reachable_gateWorld _ _) rfl rfl rfl (by decide) (by decide) (by decide)
      (hL _ _) (hp _ _)).2 ⟨by decide, by decide, by decide⟩
  · exact (linked_acl_gate demoFlags 3 (gateWorld altSpeakInB false) demoSpeaker 1 100 1000 2000
      66000 1 6 (reachable_gateWorld _ _) rfl rfl rfl (by decide) (by decide) (by decide)
      (hL _ _) (hp _ _)).2 ⟨by decide, by decide, by decide⟩
  · intro h
    exact absurd ((linked_acl_gate demoFlags 3 (gateWorld speakInAB true) demoSpeaker 0 100 1000
      2000 66000 1 6 (reachable_gateWorld _ _) rfl rfl rfl (by decide) (by decide) (by decide)
      (hL _ _) (hp _ _)).1 h).2.2 (by decide)

/-- C9: for an authenticated, unmuted, unsuppressed speaker whose frame passes
the bandwidth check, when `flags` has the Loopback bit the call issues exactly
one `sendMessage`, addressed to the speaker, whatever the occupants of the
speaker's channel and of the linked channels are. -/
theorem loopback_only_speaker (F : SpeexFlags) (N : Nat) (w : World) (u : User)
    (flags capacity now later : Nat) (rate : Int)
    (hauth : u.sState = PlayerState.Authenticated) (hmute : u.bMute = false)
    (hsup : u.bSuppressed = false)
    (hrate : (u.bwr.addFrame N (20 + 8 + 4 + (capacity : Int)) now).bytesPerSec later = some rate)
    (hmax : rate ≤ w.iMaxBandwidth) (hloop : flags &&& F.LoopBack ≠ 0) :
    (processMsg F N w (some u) flags capacity now later).sends = [u.uiSession] ∧
    ∀ p, p ≠ u.uiSession → p ∉ (processMsg F N w (some u) flags capacity now later).sends := by
  have h := processMsg_loopback F N w u flags capacity now later rate hauth hmute hsup hrate hmax
    hloop
  refine ⟨h, ?_⟩
  intro p hp hmem
  rw [h, List.mem_singleton] at hmem
  exact hp hmem

/-- Witness of C9 on scenario D: with the Loopback bit set only the speaker 5
is sent the frame, although its channel and two permitted linked channels
hold five listeners. -/
theorem loopback_only_speaker_witness :
    (processMsg demoFlags 3 crowdWorld (some demoSpeaker) 2 100 1000 2000).sends = [5] ∧
    ∀ p, p ≠ 5 → p ∉ (processMsg demoFlags 3 crowdWorld (some demoSpeaker) 2 100 1000 2000).sends :=
  loopback_only_speaker demoFlags 3 crowdWorld demoSpeaker 2 100 1000 2000 66000 rfl rfl rfl
    (by decide) (by decide) (by decide)

/-! ## Resync throttle: the statement -/

/-- C10: over an explicit clock, a failed decrypt of a session at time `t`
makes `checkDecrypt` return false and emit `reqSync` iff more than 5 s
(5,000,000 us) have elapsed since the last good decrypt and since the last
request; an emission sets the last-request time to `t` and nothing else, no
emission leaves the session object alone.  Hence, for any sequence of failed
decrypts at clock readings `ts` (non-decreasing readings among them), the
emissions are those of the throttling rule of the specification, and any two
emitted requests are more than 5 s apart. -/
theorem resync_throttle (u : User) (ts : List Nat) :
    (∀ t, (checkDecrypt u none t).ok = false ∧
      ((checkDecrypt u none t).reqSync = true ↔
        5000000 < t - u.csCrypt.tLastGood ∧ 5000000 < t - u.csCrypt.tLastRequest) ∧
      ((checkDecrypt u none t).reqSync = true →
        (checkDecrypt u none t).user =
          { u with csCrypt := { u.csCrypt with tLastRequest := t } }) ∧
      ((checkDecrypt u none t).reqSync = false → (checkDecrypt u none t).user = u)) ∧
    (failedDecrypts u ts).1 = resyncPolicy u.csCrypt.tLastGood u.csCrypt.tLastRequest ts ∧
    (emissionTimes ts (failedDecrypts u ts).1).Pairwise (fun a b => a + 5000000 < b) := by
  refine ⟨checkDecrypt_fail u, failedDecrypts_policy u ts, ?_⟩
  rw [failedDecrypts_policy]
  exact policy_spacing _ _ ts

/-- Witness of C10 on scenario E: last good decrypt and last request at time
0, failures at 6 s, 12 s and 14 s emit a request, a request, and nothing. -/
theorem resync_throttle_witness :
    (failedDecrypts staleUser [6000000, 12000000, 14000000]).1 = [true, true, false] ∧
    (emissionTimes [6000000, 12000000, 14000000]
      (failedDecrypts staleUser [6000000, 12000000, 14000000]).1).Pairwise
        (fun a b => a + 5000000 < b) :=
  ⟨(resync_throttle staleUser [6000000, 12000000, 14000000]).2.1.trans (by decide),
    (resync_throttle staleUser [6000000, 12000000, 14000000]).2.2⟩

/-! ## Stored frame size and Ping echo length: the statements -/

/-- C11 at its failing input: on a fresh ring `addFrame(256)` stores 0 in the
slot at the cursor and adds 0 to the running sum, where the claim has
`min(256, 255) = 255`; and `processMsg` for a stream of capacity 224, whose
packet size is `20 + 8 + 4 + 224 = 256`, charges the speaker nothing: the
record it leaves has the running sum 0. -/
theorem frame_of_256_counts_zero :
    ((BandwidthRecord.fresh 3 0).addFrame 3 256 10).a_iBW.getD 0 0 = 0 ∧
    ((BandwidthRecord.fresh 3 0).addFrame 3 256 10).iSum = 0 ∧
    min (256 : Int) 255 = 255 ∧
    (processMsg demoFlags 3 crowdWorld (some demoSpeaker) 0 224 1000 2000).bwr =
      some ⟨1, 0, [0, 0, 0], [1000, 0, 0]⟩ := by
  decide

/-- The slot `addFrame` writes, for every frame size: with the cursor inside
the ring, `addFrame(s)` stores the low byte `s mod 256` of the frame size,
`static_cast<unsigned char>(s)`, in the slot at the cursor, and the running
sum changes by that value less the displaced one.  For `0 ≤ s ≤ 255` this is
`min(s, 255) = s`; for a frame of 256 bytes or more the stored value is
`min(s, 255) = 255` only when `s mod 256 = 255`. -/
theorem addFrame_stores_low_byte (N : Nat) (b : BandwidthRecord) (size : Int) (now : Nat)
    (hcur : b.iRecNum < b.a_iBW.length) :
    (b.addFrame N size now).a_iBW.getD b.iRecNum 0 = (size % 256).toNat ∧
    (b.addFrame N size now).iSum =
      b.iSum - ((b.a_iBW.getD b.iRecNum 0 : Nat) : Int) + size % 256 ∧
    (0 ≤ size → size ≤ 255 →
      (((b.addFrame N size now).a_iBW.getD b.iRecNum 0 : Nat) : Int) = min size 255) ∧
    (256 ≤ size →
      ((((b.addFrame N size now).a_iBW.getD b.iRecNum 0 : Nat) : Int) = min size 255 ↔
        size % 256 = 255)) := by
  have hs : (b.addFrame N size now).a_iBW.getD b.iRecNum 0 = (size % 256).toNat := by
    simp only [BandwidthRecord.addFrame, toUChar]
    rw [List.getD_eq_getElem?_getD, List.getElem?_set_self hcur]
    rfl
  have hnn : 0 ≤ size % 256 := Int.emod_nonneg _ (by decide)
  refine ⟨hs, ?_, ?_, ?_⟩
  · simp only [BandwidthRecord.addFrame, toUChar]
    rw [Int.toNat_of_nonneg hnn]
  · intro h0 h255
    rw [hs, Int.toNat_of_nonneg hnn]
    omega
  · intro h256
    rw [hs, Int.toNat_of_nonneg hnn]
    omega

/-- The slot `addFrame` writes, evaluated: on a fresh ring of three slots a
frame of 300 bytes stores 44 and a frame of 200 bytes stores 200. -/
theorem addFrame_stores_low_byte_witness :
    ((BandwidthRecord.fresh 3 0).addFrame 3 300 10).a_iBW.getD 0 0 = 44 ∧
    ((BandwidthRecord.fresh 3 0).addFrame 3 300 10).iSum = 44 ∧
    ((((BandwidthRecord.fresh 3 0).addFrame 3 200 10).a_iBW.getD 0 0 : Nat) : Int) =
      min 200 255 :=
  ⟨(addFrame_stores_low_byte 3 (BandwidthRecord.fresh 3 0) 300 10 (by decide)).1,
    (addFrame_stores_low_byte 3 (BandwidthRecord.fresh 3 0) 300 10 (by decide)).2.1,
    (addFrame_stores_low_byte 3 (BandwidthRecord.fresh 3 0) 200 10 (by decide)).2.2.1
      (by decide) (by decide)⟩

theorem pingUnbound_order : pingUnbound.order.Perm (rebind8.qhHostUsers pingUnbound.sin_addr) :=
  (show rebind8.qhHostUsers demoAddr = [1, 2, 3, 4, 5, 6, 7] from by decide) ▸ List.Perm.refl _

theorem pingBound_order : pingBound.order.Perm (rebind9.qhHostUsers pingBound.sin_addr) :=
  (show rebind9.qhHostUsers demoAddr = [1, 2, 3, 4, 5, 6] from by decide) ▸ List.Perm.refl _

/-- C12 at its failing input (scenario F): session 7 is bound to
10.0.0.1:40000 and sends a Ping of 20 bytes from there.  `run` takes the
known-peer branch and hands `sendMessage` the received length 20 instead of
`20 - 4`, so the echo is a datagram of 24 bytes.  The same Ping arriving while
session 7 is still unbound goes through the promotion branch, which hands
over `20 - 4 = 16` and echoes 20 bytes. -/
theorem ping_echo_of_bound_peer :
    (Reachable demoIds rebind9 ∧
      rebind9.qhPeerUsers (peerKey pingBound.sin_addr pingBound.sin_port) = some 7 ∧
      pingBound.order.Perm (rebind9.qhHostUsers pingBound.sin_addr) ∧
      pingBound.len = 20 ∧ pingBound.decrypt 7 = some ⟨demoIds.Ping, 7, true⟩) ∧
    (run demoIds rebind9 pingBound).act = Action.ping 7 20 ∧
    pingEcho (run demoIds rebind9 pingBound) = some (Wire.udp demoAddr 40000 24) ∧
    (run demoIds rebind8 pingUnbound).act = Action.ping 7 16 ∧
    pingEcho (run demoIds rebind8 pingUnbound) = some (Wire.udp demoAddr 40000 20) :=
  ⟨⟨reachable_rebind9, by decide, pingBound_order, rfl, by decide⟩,
    (run_ping_bound demoIds rebind9 pingBound 7 rebindUser ⟨10, 7, true⟩ (by decide) (by decide)
      (by decide) rfl (by decide) rfl rfl rfl).1,
    pingEcho_bound demoIds rebind9 pingBound 7 rebindUser ⟨10, 7, true⟩ (by decide) (by decide)
      (by decide) rfl (by decide) rfl rfl rfl (by decide),
    (run_ping_promoted demoIds rebind8 pingUnbound 7 (demoAuth 7) ⟨10, 7, true⟩
      (reachable_tableInv demoIds rebind8 reachable_rebind8) pingUnbound_order (by decide)
      (by decide) (by decide)
      (by
        rw [show rebind8.qhHostUsers pingUnbound.sin_addr = [1, 2, 3, 4, 5, 6, 7] from by decide]
        simp)
      rfl (by decide) rfl rfl rfl
      (fun c _ hc => by simp [pingUnbound, pingFor, hc])).1,
    by decide⟩

end Murmur
